import Mathlib

/-!
Verification development for the `deflate-rs` repository: a shallow
embedding of its DEFLATE / gzip codec (files `bit_io.rs`, `lzss.rs`,
`huffman.rs`, `deflate.rs`, `gzip.rs`) together with theorems settling
the specification claims.

Conventions of the embedding:
* Bytes are `Nat` values; where a claim needs the 8-bit range this is an
  explicit hypothesis (`b < 256`).
* The generic `io::Read` byte source of a `BitReader` is embedded as the
  list of bytes it yields; `io::Write` sinks are embedded by returning
  the list of bytes written.
* Rust `io::Result` becomes `Except Err`; only the error kinds the codec
  itself produces (`InvalidData`, `UnexpectedEof`) are distinguished.
* `while` loops that are not structurally recursive carry an explicit
  fuel argument; fuel bounds are chosen so that exhaustion is unreachable
  for the executions the theorems talk about.
-/

/-! ## Bit reader (src/bit_io.rs)

The source couples a `ByteBuffer` (one in-flight byte plus an index
`idx ∈ [0,8]` of the next bit) with an `io::Bytes` iterator.  The buffer
is embedded as the list of its *remaining* bits (`byte[idx..8]` in LSB0
order); `idx = 8` (exhausted, `needs_flush`) is the empty list.  Bits
within a byte are consumed least-significant first, exactly as
`BitArray<[u8;1]>`/`Lsb0` does in the source. -/

/-- Error kinds produced by the codec (`io::ErrorKind` as used by the source). -/
inductive Err where
  | invalidData
  | unexpectedEof
deriving DecidableEq, Repr

/-- `BitReader`: remaining bits of the in-flight byte, plus the bytes not
yet pulled from the underlying source. -/
structure BitReader where
  buf : List Bool
  inner : List Nat
deriving DecidableEq, Repr

/-- The `k` low bits of `n`, least-significant first (LSB0 view of a byte). -/
def natBits : Nat → Nat → List Bool
  | 0, _ => []
  | k + 1, n => (n % 2 = 1) :: natBits k (n / 2)

/-- All 8 bits of a byte, LSB first (`BitArray<[u8;1]>` with `Lsb0`). -/
def byteBits (b : Nat) : List Bool := natBits 8 b

/-- `BitReader::new`: empty buffer (`idx = 8`), all bytes still in the source. -/
def BitReader.new (bytes : List Nat) : BitReader := ⟨[], bytes⟩

/-- `BitReader::read_bool` (a 1-bit `read_exact`): take the next buffered
bit, lazily loading the next byte (`read_next_byte`) when the buffer is
exhausted; EOF of the source is `UnexpectedEof`. -/
def readBool : BitReader → Except Err (Bool × BitReader)
  | ⟨b :: rest, inner⟩ => .ok (b, ⟨rest, inner⟩)
  | ⟨[], []⟩ => .error .unexpectedEof
  | ⟨[], byte :: bs⟩ => .ok (byte % 2 = 1, ⟨natBits 7 (byte / 2), bs⟩)

/-- `read_uN_from_bits(n)`: read `n` bits and assemble them LSB-first
(`load_le`), so the first bit read has weight `2^0`. -/
def readUint : Nat → BitReader → Except Err (Nat × BitReader)
  | 0, r => .ok (0, r)
  | n + 1, r => do
    let (b, r) ← readBool r
    let (v, r) ← readUint n r
    .ok ((if b then 1 else 0) + 2 * v, r)

/-- `read_exact` into an `n`-bit slice, returning the bits in stream order. -/
def readBits : Nat → BitReader → Except Err (List Bool × BitReader)
  | 0, r => .ok ([], r)
  | n + 1, r => do
    let (b, r) ← readBool r
    let (bs, r) ← readBits n r
    .ok (b :: bs, r)

/-- `BitReader::skip_to_byte_end`: discard the remaining bits of the
current byte (`idx := 8`). -/
def skipToByteEnd (r : BitReader) : BitReader := ⟨[], r.inner⟩

/-- `BitReader::is_eof`: if bits remain, not EOF; otherwise try to load
the next byte, keeping it in the buffer on success. -/
def isEof : BitReader → Bool × BitReader
  | ⟨b :: rest, inner⟩ => (false, ⟨b :: rest, inner⟩)
  | ⟨[], []⟩ => (true, ⟨[], []⟩)
  | ⟨[], byte :: bs⟩ => (false, ⟨byteBits byte, bs⟩)

/-- The full stream of bits a reader will deliver, in order. -/
def bitsOf (r : BitReader) : List Bool :=
  r.buf ++ (r.inner.map byteBits).flatten

/-- Number of bits a reader can still deliver. -/
def totalBits (r : BitReader) : Nat := r.buf.length + 8 * r.inner.length
/-- Value of an LSB-first bit list. -/
def lsbVal : List Bool → Nat
  | [] => 0
  | b :: bs => (if b then 1 else 0) + 2 * lsbVal bs



/-! ## LZSS symbol model (src/lzss.rs)

`Symbol` and the pure length/distance code maps.  The source works in
`u8`/`u16`; all values stay below the overflow bounds, so plain `Nat`
arithmetic coincides.  `ilog2` is `Nat.log2`; `x >> k & m` is
`x / 2 ^ k % (m+1)`. -/

/-- `lzss::Symbol` (named `LzssSymbol` here: `Symbol` collides with a
Mathlib declaration). -/
inductive LzssSymbol where
  | literal (b : Nat)
  | endOfBlock
  | backReference (lengthMinusThree : Nat) (distanceMinusOne : Nat)
deriving DecidableEq, Repr

/-- `Symbol::back_reference_length_code`. -/
def backRefLengthCode (l3 : Nat) : Nat :=
  257 + (if l3 ≤ 7 then l3
         else if l3 ≤ 254 then 4 * (Nat.log2 l3 - 1) + l3 / 2 ^ (Nat.log2 l3 - 2) % 4
         else 28)

/-- `Symbol::back_reference_length_extra_bits`. -/
def backRefLengthExtraBits (l3 : Nat) : Nat :=
  if l3 ≤ 7 then 0 else if l3 ≤ 254 then Nat.log2 l3 - 2 else 0

/-- `Symbol::back_reference_distance_code`.  The source panics for
`distance_minus_one ≥ 32768` (unreachable: the decoder produces at most
32767); that branch is modelled as 0. -/
def backRefDistanceCode (d1 : Nat) : Nat :=
  if d1 ≤ 3 then d1
  else if d1 ≤ 32767 then 2 * Nat.log2 d1 + d1 / 2 ^ (Nat.log2 d1 - 1) % 2
  else 0

/-- `Symbol::back_reference_distance_extra_bits` (same panic note). -/
def backRefDistanceExtraBits (d1 : Nat) : Nat :=
  if d1 ≤ 3 then 0 else if d1 ≤ 32767 then Nat.log2 d1 - 1 else 0

/-! ## Canonical Huffman trees (src/huffman.rs) -/

/-- Largest code length (`code_length_counts.last_key_value`, 0 when empty). -/
def maxLen (V : List Nat) : Nat := V.foldr max 0

/-- Occurrences of length `L` in the vector (the `BTreeMap` count). -/
def countLen (V : List Nat) (L : Nat) : Nat := V.count L

/-- The `code` value of `from_code_lengths`' first loop after processing
lengths `1..=L`: `code = (code + count[length-1]) << 1`.  Note the source
does not zero `count[0]`, unlike RFC 1951 §3.2.2. -/
def srcNextCode (V : List Nat) : Nat → Nat
  | 0 => 0
  | L + 1 => (srcNextCode V L + countLen V L) * 2

/-- The `next_code` vector as first built (entries `0..=largest_code_length`). -/
def initNextCodes (V : List Nat) : List Nat :=
  (List.range (maxLen V + 1)).map (srcNextCode V)

/-- `compute_heap_index`: walk the low `len` bits of `code` from most
significant to least, descending `index := 2*index + bit` from the root. -/
def computeHeapIndex : Nat → Nat → Nat
  | _, 0 => 1
  | code, k + 1 => 2 * computeHeapIndex (code / 2) k + code % 2

/-- `HuffmanTree`: the array-heap (index 1 is the root). -/
structure HuffmanTree where
  tree : List (Option Nat)
deriving DecidableEq, Repr

/-- One step of `from_code_lengths`' symbol loop: look up
`next_code[code_len]`, place the symbol, increment the slot. -/
def huffAssign (V : List Nat) (st : List Nat × List (Option Nat)) (s : Nat) :
    List Nat × List (Option Nat) :=
  let len := V.getD s 0
  let code := st.1.getD len 0
  (st.1.set len (code + 1), st.2.set (computeHeapIndex code len) (some s))

/-- `HuffmanTree::from_code_lengths`. -/
def fromCodeLengths (V : List Nat) : HuffmanTree :=
  ⟨((List.range V.length).foldl (huffAssign V)
      (initNextCodes V, List.replicate (2 ^ (maxLen V + 1)) (none : Option Nat))).2⟩

/-- `FIXED_LITERAL_CODE_LENGTHS.concat()`. -/
def fixedLiteralCodeLengths : List Nat :=
  List.replicate 144 8 ++ List.replicate 112 9 ++ List.replicate 24 7 ++
    List.replicate 8 8

/-- `HuffmanTree::fixed_literal`. -/
def fixedLiteral : HuffmanTree := fromCodeLengths fixedLiteralCodeLengths

/-- `DYNAMIC_CODE_LENGTH_SYMBOLS`. -/
def dynamicCodeLengthSymbols : List Nat :=
  [16, 17, 18, 0, 8, 7, 9, 6, 10, 5, 11, 4, 12, 3, 13, 2, 14, 1, 15]

/-- `HuffmanTree::dynamic_code_lengths`: scatter the transmitted lengths
into a 19-slot vector in the fixed symbol order, then build. -/
def dynamicCodeLengths (inOrder : List Nat) : HuffmanTree :=
  fromCodeLengths
    ((dynamicCodeLengthSymbols.zip inOrder).foldl
      (fun arr p => arr.set p.1 p.2) (List.replicate 19 0))

/-- The loop of `HuffmanTree::decode`.  The walk index at least doubles
per step and errors once it passes `tree.len()`, so `tree.len()` steps of
fuel can never be exhausted; fuel-out is mapped to the same `InvalidData`
the bounds check raises. -/
def treeDecodeAux (t : List (Option Nat)) : Nat → Nat → BitReader → Except Err (Nat × BitReader)
  | 0, _, _ => .error .invalidData
  | fuel + 1, index, r =>
    readBool r >>= fun bp =>
      let index := 2 * index + (if bp.1 then 1 else 0)
      if t.length ≤ index then .error .invalidData
      else
        match t.getD index none with
        | some s => .ok (s, bp.2)
        | none => treeDecodeAux t fuel index bp.2

/-- `HuffmanTree::decode`: start at the root (index 1). -/
def HuffmanTree.decode (h : HuffmanTree) (r : BitReader) : Except Err (Nat × BitReader) :=
  treeDecodeAux h.tree h.tree.length 1 r

/-- `huffman::DistanceEncoding`. -/
inductive DistanceEncoding where
  | fixed
  | dynamic (tree : HuffmanTree)

/-- `DistanceEncoding::decode`: the fixed encoding reads 5 bits LSB-first
(`read_u16_from_bits(5)`), the dynamic one walks its tree. -/
def DistanceEncoding.decode : DistanceEncoding → BitReader → Except Err (Nat × BitReader)
  | .fixed, r => readUint 5 r
  | .dynamic t, r => t.decode r

/-- The loop of `HuffmanTree::decode_code_lengths`.  Each iteration
appends at least one length, so `count` steps of fuel always suffice;
fuel-out is unreachable and mapped to `InvalidData`. -/
def decodeCodeLengthsGo (t : HuffmanTree) (count : Nat) :
    Nat → List Nat → Option Nat → BitReader → Except Err (List Nat × BitReader)
  | fuel, acc, prev, r =>
    if acc.length < count then
      match fuel with
      | 0 => .error .invalidData
      | fuel + 1 =>
        t.decode r >>= fun sp =>
          if sp.1 ≤ 15 then
            decodeCodeLengthsGo t count fuel (acc ++ [sp.1]) (some sp.1) sp.2
          else if sp.1 = 16 then
            readUint 2 sp.2 >>= fun ep =>
              match prev with
              | none => .error .invalidData
              | some p =>
                decodeCodeLengthsGo t count fuel
                  (acc ++ List.replicate (ep.1 + 3) p) prev ep.2
          else if sp.1 = 17 then
            readUint 3 sp.2 >>= fun ep =>
              decodeCodeLengthsGo t count fuel
                (acc ++ List.replicate (ep.1 + 3) 0) (some 0) ep.2
          else if sp.1 = 18 then
            readUint 7 sp.2 >>= fun ep =>
              decodeCodeLengthsGo t count fuel
                (acc ++ List.replicate (ep.1 + 11) 0) (some 0) ep.2
          else .error .invalidData
    else if count < acc.length then .error .invalidData
    else .ok (acc, r)

/-- `HuffmanTree::decode_code_lengths`: run the RLE loop starting with no
previous length, then build a tree from the decoded lengths. -/
def decodeCodeLengths (t : HuffmanTree) (count : Nat) (r : BitReader) :
    Except Err (HuffmanTree × BitReader) :=
  decodeCodeLengthsGo t count count [] none r >>= fun p =>
    .ok (fromCodeLengths p.1, p.2)

/-! ## RFC 1951 §3.2.2 canonical codes (specification side, for claim C4)

The RFC recurrence zeroes `bl_count[0]`; these definitions follow the
RFC text and are compared against the source construction above. -/

/-- RFC 1951 §3.2.2 `next_code`, with `bl_count[0] = 0`. -/
def rfcNextCode (V : List Nat) : Nat → Nat
  | 0 => 0
  | L + 1 => (rfcNextCode V L + if L = 0 then 0 else countLen V L) * 2

/-- How many earlier symbols share symbol `s`'s code length. -/
def rankOf (V : List Nat) (s : Nat) : Nat := (V.take s).count (V.getD s 0)

/-- The RFC canonical code of symbol `s`. -/
def rfcCode (V : List Nat) (s : Nat) : Nat := rfcNextCode V (V.getD s 0) + rankOf V s

/-- The code value the source assigns to symbol `s` (see `huffAssign`). -/
def symCode (V : List Nat) (s : Nat) : Nat := srcNextCode V (V.getD s 0) + rankOf V s

/-- The `k`-bit codeword of `c`, most-significant bit first, as it
appears on the wire for a Huffman code. -/
def msbBits : Nat → Nat → List Bool
  | 0, _ => []
  | k + 1, c => (c / 2 ^ k % 2 = 1) :: msbBits k c

/-- Partial weighted count `Σ_j≤L count[j] · 2^(L-j)` over lengths `1..=L`. -/
def pSum (V : List Nat) : Nat → Nat
  | 0 => 0
  | L + 1 => 2 * pSum V L + countLen V (L + 1)

/-- Kraft sum of the non-zero lengths, scaled by `2^M`. -/
def kraftSum (W : List Nat) (M : Nat) : Nat :=
  ((W.filter (fun l => l != 0)).map (fun l => 2 ^ (M - l))).sum

/-- The Kraft prefix-free condition for a code-length vector: the scaled
Kraft sum does not exceed `2^maxLen` (the code is not oversubscribed). -/
def kraftOk (V : List Nat) : Prop := kraftSum V (maxLen V) ≤ 2 ^ (maxLen V)

instance kraftOkDecidable (V : List Nat) : Decidable (kraftOk V) :=
  inferInstanceAs (Decidable (_ ≤ _))

/-! ## DEFLATE decoder and encoder (src/deflate.rs) -/

/-- The decoder's sliding window.

Modelled from the spec: `OutBuffer` (`src/lzss.rs`) is absent from the
provided sources (only its import and call sites appear).  Per spec §3
and §9 it is a ring buffer of capacity exactly 32768 holding the most
recently emitted bytes; `push` appends (evicting the oldest byte when
full) and `get(d1)` returns the byte `d1 + 1` positions before the next
write position, or "out of range" when fewer bytes have ever been
written.  `data` holds the retained bytes most-recent first, so `get d1`
is indexing at `d1`. -/
structure OutBuffer where
  data : List Nat
deriving DecidableEq, Repr

/-- Modelled from the spec: `OutBuffer::push` (capacity 32768). -/
def OutBuffer.push (buf : OutBuffer) (b : Nat) : OutBuffer :=
  ⟨b :: buf.data.take 32767⟩

/-- Modelled from the spec: `OutBuffer::get(distance_minus_one)`. -/
def OutBuffer.get (buf : OutBuffer) (d1 : Nat) : Option Nat := buf.data[d1]?

/-- Length branch of `parse_symbol` (src/deflate.rs): recover
`length_minus_three` from `length_code - 257` plus its extra bits. -/
def parseLengthValue (c : Nat) (r : BitReader) : Except Err (Nat × BitReader) :=
  if c ≤ 7 then .ok (c, r)
  else if c ≤ 27 then
    readUint (c / 4 - 1) r >>= fun p =>
      .ok (2 ^ (c / 4 + 1) + 2 ^ (c / 4 - 1) * (c % 4) + p.1, p.2)
  else .ok (255, r)

/-- Distance branch of `parse_symbol`: recover `distance_minus_one` from
the distance code plus its extra bits; codes above 29 are `InvalidData`. -/
def parseDistanceValue (dcode : Nat) (r : BitReader) : Except Err (Nat × BitReader) :=
  if dcode ≤ 3 then .ok (dcode, r)
  else if dcode ≤ 29 then
    readUint (dcode / 2 - 1) r >>= fun p =>
      .ok (2 ^ (dcode / 2) + 2 ^ (dcode / 2 - 1) * (dcode % 2) + p.1, p.2)
  else .error .invalidData

/-- `parse_symbol` after the literal/length code has been decoded:
dispatch on literal / end-of-block / back-reference. -/
def parseSymbolAfterCode (lengthCode : Nat) (distEnc : DistanceEncoding) (r : BitReader) :
    Except Err (LzssSymbol × BitReader) :=
  if lengthCode ≤ 255 then .ok (.literal lengthCode, r)
  else if lengthCode = 256 then .ok (.endOfBlock, r)
  else if lengthCode ≤ 285 then
    parseLengthValue (lengthCode - 257) r >>= fun lp =>
    distEnc.decode lp.2 >>= fun dp =>
    parseDistanceValue dp.1 dp.2 >>= fun ddp =>
    .ok (.backReference lp.1 ddp.1, ddp.2)
  else .error .invalidData

/-- `parse_symbol`: decode a literal/length code through the tree, then
finish as above. -/
def parseSymbol (lit : HuffmanTree) (distEnc : DistanceEncoding) (r : BitReader) :
    Except Err (LzssSymbol × BitReader) :=
  lit.decode r >>= fun p => parseSymbolAfterCode p.1 distEnc p.2

/-- The back-reference inner loop of `decode_huffman_block`: `length`
iterations of read-from-window, emit, push — the byte is fetched *after*
every previous push.  `None` models the `InvalidData` raised when the
window lookup is out of range. -/
def backRefLoop (buf : OutBuffer) (d1 : Nat) : Nat → Option (List Nat × OutBuffer)
  | 0 => some ([], buf)
  | n + 1 =>
    match buf.get d1 with
    | none => none
    | some b => (backRefLoop (buf.push b) d1 n).map fun p => (b :: p.1, p.2)

/-- `DeflateDecoder::decode_huffman_block`: parse symbols until
end-of-block, emitting literals and back-references through the window.
Each iteration consumes at least one bit, so `totalBits r + 1` fuel (as
supplied by `advanceStage`) cannot be exhausted. -/
def decodeHuffmanBlock (lit : HuffmanTree) (distEnc : DistanceEncoding) :
    Nat → OutBuffer → BitReader → Except Err (OutBuffer × BitReader × List Nat)
  | 0, _, _ => .error .invalidData
  | fuel + 1, buf, r =>
    parseSymbol lit distEnc r >>= fun sp =>
      match sp.1 with
      | .literal b =>
        decodeHuffmanBlock lit distEnc fuel (buf.push b) sp.2 >>= fun res =>
          .ok (res.1, res.2.1, b :: res.2.2)
      | .endOfBlock => .ok (buf, sp.2, [])
      | .backReference l3 d1 =>
        match backRefLoop buf d1 (l3 + 3) with
        | none => .error .invalidData
        | some w =>
          decodeHuffmanBlock lit distEnc fuel w.2 sp.2 >>= fun res =>
            .ok (res.1, res.2.1, w.1 ++ res.2.2)

/-- `DeflateEncoding` (block type from the two header bits). -/
inductive Encoding where
  | noCompression
  | fixedHuffman
  | dynamicHuffman
deriving DecidableEq, Repr

/-- `DecodeStage`. -/
inductive Stage where
  | newBlock
  | parsedMode (isFinal : Bool) (encoding : Encoding)
  | complete
deriving DecidableEq, Repr

/-- `DeflateDecoder`'s state: sliding window plus stage. -/
structure DecoderState where
  outBuffer : OutBuffer
  stage : Stage
deriving DecidableEq, Repr

/-- `n` consecutive `width`-bit LSB-first reads. -/
def readNUints (width : Nat) : Nat → BitReader → Except Err (List Nat × BitReader)
  | 0, r => .ok ([], r)
  | n + 1, r =>
    readUint width r >>= fun p =>
      readNUints width n p.2 >>= fun q => .ok (p.1 :: q.1, q.2)

/-- The `for _ in 0..len { out.write_all(&[in_.read_u8()?]) }` copy loop
of the stored-block arm. -/
def readU8s : Nat → BitReader → Except Err (List Nat × BitReader) := readNUints 8

/-- Stored-block arm of `advance_stage`: align to a byte boundary, read
`LEN` and `NLEN` (little-endian u16), require `NLEN = !LEN` (bitwise u16
complement, i.e. `65535 - LEN`), then copy `LEN` raw bytes. -/
def noCompressionBody (r : BitReader) : Except Err (List Nat × BitReader) :=
  let r1 := skipToByteEnd r
  readUint 16 r1 >>= fun lp =>
  readUint 16 lp.2 >>= fun np =>
  if 65535 - lp.1 ≠ np.1 then .error .invalidData
  else readU8s lp.1 np.2

/-- Dynamic-Huffman arm of `advance_stage`: read HLIT/HDIST/HCLEN, the
code-length code lengths, build the code-length tree, decode the literal
lengths and then the distance lengths (two separate `decode_code_lengths`
calls, each starting with `prev_code_length = None`), then decode the
block body. -/
def dynamicBody (ob : OutBuffer) (r : BitReader) :
    Except Err (OutBuffer × BitReader × List Nat) :=
  readUint 5 r >>= fun hlit =>
  readUint 5 hlit.2 >>= fun hdist =>
  readUint 4 hdist.2 >>= fun hclen =>
  readNUints 3 (hclen.1 + 4) hclen.2 >>= fun cls =>
  let clTree := dynamicCodeLengths cls.1
  decodeCodeLengths clTree (hlit.1 + 257) cls.2 >>= fun litp =>
  decodeCodeLengths clTree (hdist.1 + 1) litp.2 >>= fun distp =>
  decodeHuffmanBlock litp.1 (.dynamic distp.1) (totalBits distp.2 + 1) ob distp.2

/-- `DeflateDecoder::advance_stage`.  Returns the new state, the reader,
and the bytes written to `out` during this call. -/
def advanceStage (st : DecoderState) (r : BitReader) :
    Except Err (DecoderState × BitReader × List Nat) :=
  match st.stage with
  | .newBlock =>
    readBool r >>= fun fp =>
    readUint 2 fp.2 >>= fun ep =>
    (match ep.1 with
     | 0 => .ok Encoding.noCompression
     | 1 => .ok Encoding.fixedHuffman
     | 2 => .ok Encoding.dynamicHuffman
     | _ => .error Err.invalidData) >>= fun enc =>
    .ok (⟨st.outBuffer, .parsedMode fp.1 enc⟩, ep.2, [])
  | .parsedMode isFinal enc =>
    (match enc with
     | .noCompression =>
       noCompressionBody r >>= fun p => .ok (st.outBuffer, p.2, p.1)
     | .fixedHuffman =>
       decodeHuffmanBlock fixedLiteral .fixed (totalBits r + 1) st.outBuffer r
     | .dynamicHuffman => dynamicBody st.outBuffer r) >>= fun res =>
    if isFinal then .ok (⟨res.1, .complete⟩, skipToByteEnd res.2.1, res.2.2)
    else .ok (⟨res.1, .newBlock⟩, res.2.1, res.2.2)
  | .complete => .ok (st, r, [])

/-- `DeflateDecoder::decode`: run `advance_stage` until `Complete`.  The
fuel counts `advance_stage` calls (`none` = fuel exhausted, a model
artifact only). -/
def decodeSteps : Nat → DecoderState → BitReader → Option (Except Err (List Nat × BitReader))
  | fuel, st, r =>
    match st.stage with
    | .complete => some (.ok ([], r))
    | _ =>
      match fuel with
      | 0 => none
      | fuel + 1 =>
        match advanceStage st r with
        | .error e => some (.error e)
        | .ok res =>
          (decodeSteps fuel res.1 res.2.1).map fun out =>
            out.map fun p => (res.2.2 ++ p.1, p.2)

/-- `DeflateDecoder::decode` on a fresh decoder over a byte stream,
projected to the bytes written. -/
def deflateDecode (fuel : Nat) (bytes : List Nat) : Option (Except Err (List Nat)) :=
  (decodeSteps fuel ⟨⟨[]⟩, .newBlock⟩ (BitReader.new bytes)).map fun res =>
    res.map Prod.fst

/-- Little-endian bytes of a `u16` (`to_le_bytes`). -/
def u16le (n : Nat) : List Nat := [n % 256, n / 256 % 256]

/-- One stored block as emitted by `DeflateEncoder::advance_stage`: the
header byte (bit 0 = `is_eof`, bits 1–2 = `00`, zero-padded), `LEN`,
`NLEN = !LEN`, then the raw content. -/
def encodeBlock (isFinal : Bool) (content : List Nat) : List Nat :=
  (if isFinal then 1 else 0) ::
    (u16le content.length ++ u16le (65535 - content.length) ++ content)

/-- The sequence of `(is_eof, content)` blocks `DeflateEncoder::encode`
produces from a byte list (the greedy source: each `read` returns as many
bytes as fit).  The fill loop stops at 65535 bytes without EOF, or at a
zero-length read with EOF. -/
def deflateBlocks (s : List Nat) : List (Bool × List Nat) :=
  if s.length < 65535 then [(true, s)]
  else (false, s.take 65535) :: deflateBlocks (s.drop 65535)
termination_by s.length
decreasing_by simp only [List.length_drop]; omega

/-- `DeflateEncoder::encode` over a byte list: emit every block. -/
def deflateEncode (s : List Nat) : List Nat :=
  ((deflateBlocks s).map fun p => encodeBlock p.1 p.2).flatten

/-- One block-fill loop of `DeflateEncoder::advance_stage` over a
chunked byte source: each `read` call yields (a prefix of) the next
chunk.  Returns the block content, the `is_eof` flag, and the remaining
source.  An empty chunk is a zero-length read, which the loop treats as
EOF. -/
def fillBlock : List (List Nat) → Nat → List Nat × Bool × List (List Nat)
  | [], _ => ([], true, [])
  | c :: rest, space =>
    if c.length = 0 then ([], true, rest)
    else if c.length < space then
      let fb := fillBlock rest (space - c.length)
      (c ++ fb.1, fb.2.1, fb.2.2)
    else if c.length = space then (c, false, rest)
    else (c.take space, false, c.drop space :: rest)

/-- `DeflateEncoder::encode` over a chunked source; fuel bounds the
number of blocks (`flatten.length + 1` always suffices since every
non-final block consumes 65535 bytes). -/
def encodeChunksGo : Nat → List (List Nat) → List Nat
  | 0, _ => []
  | fuel + 1, cs =>
    let fb := fillBlock cs 65535
    if fb.2.1 then encodeBlock true fb.1
    else encodeBlock false fb.1 ++ encodeChunksGo fuel fb.2.2

/-- `DeflateEncoder::encode` over a chunked byte source. -/
def deflateEncodeChunks (cs : List (List Nat)) : List Nat :=
  encodeChunksGo (cs.flatten.length + 1) cs

/-! ## Gzip header flags (src/gzip.rs)

`advance_stage` in the `NewMember` state reads the FLG byte into an
`Lsb0` bit slice, then calls `flg.reverse()` before indexing the flag
bits — so `flg[i]` afterwards is on-wire bit `7 - i`. -/

/-- The five FLG flags as the decoder binds them. -/
structure GzipFlags where
  ftext : Bool
  fhcrc : Bool
  fextra : Bool
  fname : Bool
  fcomment : Bool
deriving DecidableEq, Repr

/-- The FLG byte handling of `GzipDecoder::advance_stage`: read 8 bits
(LSB-first), reverse the slice, and take `flg[0]..flg[4]` as
FTEXT, FHCRC, FEXTRA, FNAME, FCOMMENT. -/
def readGzipFlags (r : BitReader) : Except Err (GzipFlags × BitReader) :=
  readBits 8 r >>= fun bp =>
    let rev := bp.1.reverse
    .ok (⟨rev.getD 0 false, rev.getD 1 false, rev.getD 2 false,
          rev.getD 3 false, rev.getD 4 false⟩, bp.2)




/-- The tree contents of `from_code_lengths` with each symbol's code
precomputed (`symCode`); proven equal to the fold in `fromCodeLengths`. -/
def placeSymbols (V : List Nat) : List (Option Nat) :=
  (List.range V.length).foldl
    (fun t s => t.set (computeHeapIndex (symCode V s) (V.getD s 0)) (some s))
    (List.replicate (2 ^ (maxLen V + 1)) (none : Option Nat))

/-- The extra-bit field value of a back-reference length: the offset of
`length_minus_three` above the base of its length code (the value whose
`back_reference_length_extra_bits` bits are written after the code). -/
def lengthExtraVal (l3 : Nat) : Nat :=
  l3 - (2 ^ ((backRefLengthCode l3 - 257) / 4 + 1) +
        2 ^ ((backRefLengthCode l3 - 257) / 4 - 1) * ((backRefLengthCode l3 - 257) % 4))

/-- The extra-bit field value of a back-reference distance. -/
def distExtraVal (d1 : Nat) : Nat :=
  d1 - (2 ^ (backRefDistanceCode d1 / 2) +
        2 ^ (backRefDistanceCode d1 / 2 - 1) * (backRefDistanceCode d1 % 2))

/-- Decidable equality for `Except` results. -/
instance exceptDecidableEq {ε α : Type} [DecidableEq ε] [DecidableEq α] :
    DecidableEq (Except ε α) := fun x y =>
  match x, y with
  | .ok a, .ok b =>
    if h : a = b then isTrue (by rw [h])
    else isFalse (by intro hc; injection hc with h2; exact h h2)
  | .error a, .error b =>
    if h : a = b then isTrue (by rw [h])
    else isFalse (by intro hc; injection hc with h2; exact h h2)
  | .ok _, .error _ => isFalse (by intro hc; injection hc)
  | .error _, .ok _ => isFalse (by intro hc; injection hc)

/-! ### Basic bit-reader lemmas -/

theorem natBits_length (k n : Nat) : (natBits k n).length = k := by
  induction k generalizing n with
  | zero => rfl
  | succ k ih => simp [natBits, ih]

theorem natBits_append (m k n : Nat) :
    natBits (m + k) n = natBits m n ++ natBits k (n / 2 ^ m) := by
  induction m generalizing n with
  | zero => simp [natBits]
  | succ m ih =>
    have hmk : m + 1 + k = (m + k) + 1 := by omega
    rw [hmk]
    simp only [natBits, List.cons_append, List.cons.injEq, true_and]
    rw [ih (n / 2)]
    congr 2
    rw [Nat.div_div_eq_div_mul, pow_succ, Nat.mul_comm]

/-- Splitting a `Nat` mod a power of two at the low bit. -/
theorem mod_two_pow_succ_lsb (n k : Nat) :
    n % 2 ^ (k + 1) = n % 2 + 2 * (n / 2 % 2 ^ k) := by
  have h1 : (2 : Nat) ^ (k + 1) = 2 * 2 ^ k := by rw [pow_succ]; ring
  have h2 := Nat.mod_mul_right_div_self n 2 (2 ^ k)
  have h3 := Nat.mod_mod_of_dvd n (⟨2 ^ k, rfl⟩ : (2 : Nat) ∣ 2 * 2 ^ k)
  have h4 := Nat.div_add_mod (n % (2 * 2 ^ k)) 2
  rw [h1, ← h2, ← h3]
  omega

/-- Splitting a `Nat` mod a power of two at the high bit. -/
theorem mod_two_pow_succ_msb (n k : Nat) :
    n % 2 ^ (k + 1) = (n / 2 ^ k % 2) * 2 ^ k + n % 2 ^ k := by
  have h1 : (2 : Nat) ^ (k + 1) = 2 ^ k * 2 := by rw [pow_succ]
  have h2 := Nat.mod_mul_right_div_self n (2 ^ k) 2
  have h3 := Nat.mod_mod_of_dvd n (⟨2, rfl⟩ : (2 : Nat) ^ k ∣ 2 ^ k * 2)
  have h4 := Nat.div_add_mod (n % (2 ^ k * 2)) (2 ^ k)
  rw [h1, ← h2, ← h3]
  have h5 := Nat.mul_comm (n % (2 ^ k * 2) / 2 ^ k) (2 ^ k)
  omega

/-- `Except` bind on a success, for rewriting `do`-blocks. -/
theorem exceptBind_ok {ε α β : Type} (a : α) (f : α → Except ε β) :
    (Except.ok a >>= f) = f a := rfl

/-- `Except` bind on an error, for rewriting `do`-blocks. -/
theorem exceptBind_error {ε α β : Type} (e : ε) (f : α → Except ε β) :
    ((Except.error e : Except ε α) >>= f) = .error e := rfl

/-- Reading a single bit, characterised through `bitsOf`. -/
theorem readBool_bitsOf {r : BitReader} {b : Bool} {rest : List Bool}
    (h : bitsOf r = b :: rest) :
    ∃ r', readBool r = .ok (b, r') ∧ bitsOf r' = rest := by
  obtain ⟨buf, inner⟩ := r
  cases buf with
  | cons x xs =>
    simp only [bitsOf, List.cons_append] at h
    injection h with h1 h2
    subst h1
    exact ⟨⟨xs, inner⟩, rfl, h2⟩
  | nil =>
    cases inner with
    | nil => simp [bitsOf] at h
    | cons y ys =>
      have hb : byteBits y = (decide (y % 2 = 1)) :: natBits 7 (y / 2) := rfl
      simp only [bitsOf, List.nil_append, List.map_cons, List.flatten_cons, hb,
        List.cons_append] at h
      injection h with h1 h2
      subst h1
      exact ⟨⟨natBits 7 (y / 2), ys⟩, rfl, by simpa [bitsOf] using h2⟩

theorem lsbVal_natBits (k n : Nat) : lsbVal (natBits k n) = n % 2 ^ k := by
  induction k generalizing n with
  | zero => simp [natBits, lsbVal, Nat.mod_one]
  | succ k ih =>
    simp only [natBits, lsbVal, ih]
    rw [mod_two_pow_succ_lsb]
    rcases Nat.mod_two_eq_zero_or_one n with hm | hm <;> simp [hm]

/-- Reading `n` bits from a reader whose buffer starts with exactly those
`n` bits consumes the prefix and assembles it LSB-first. -/
theorem readUint_buf (bs : List Bool) (more : List Bool) (inner : List Nat) :
    readUint bs.length ⟨bs ++ more, inner⟩ = .ok (lsbVal bs, ⟨more, inner⟩) := by
  induction bs with
  | nil => simp [readUint, lsbVal]
  | cons b bs ih =>
    simp [readUint, readBool, lsbVal, ih, exceptBind_ok]

/-- `readUint` characterised through `bitsOf`: consuming `n` leading bits. -/
theorem readUint_bitsOf {r : BitReader} {bs rest : List Bool}
    (h : bitsOf r = bs ++ rest) :
    ∃ r', readUint bs.length r = .ok (lsbVal bs, r') ∧ bitsOf r' = rest := by
  induction bs generalizing r with
  | nil => exact ⟨r, by simp [readUint, lsbVal], by simpa using h⟩
  | cons b bs ih =>
    rw [List.cons_append] at h
    obtain ⟨r1, hr1, hb1⟩ := readBool_bitsOf h
    obtain ⟨r2, hr2, hb2⟩ := ih hb1
    refine ⟨r2, ?_, hb2⟩
    simp [readUint, hr1, hr2, lsbVal, exceptBind_ok]

theorem readBits_bitsOf {r : BitReader} {bs rest : List Bool}
    (h : bitsOf r = bs ++ rest) :
    ∃ r', readBits bs.length r = .ok (bs, r') ∧ bitsOf r' = rest := by
  induction bs generalizing r with
  | nil => exact ⟨r, by simp [readBits], by simpa using h⟩
  | cons b bs ih =>
    rw [List.cons_append] at h
    obtain ⟨r1, hr1, hb1⟩ := readBool_bitsOf h
    obtain ⟨r2, hr2, hb2⟩ := ih hb1
    refine ⟨r2, ?_, hb2⟩
    simp [readBits, hr1, hr2, exceptBind_ok]

/-- Splitting a `readUint` into two: LSB-first weighting. -/
theorem readUint_add (m n : Nat) (r : BitReader) :
    readUint (m + n) r =
      (readUint m r >>= fun p =>
        readUint n p.2 >>= fun q => .ok (p.1 + 2 ^ m * q.1, q.2)) := by
  induction m generalizing r with
  | zero =>
    simp only [Nat.zero_add, readUint, pow_zero, one_mul]
    cases h : readUint n r with
    | error e => simp [h, exceptBind_ok, exceptBind_error]
    | ok q => simp [h, exceptBind_ok]
  | succ m ih =>
    have hmn : m + 1 + n = (m + n) + 1 := by omega
    rw [hmn]
    simp only [readUint]
    cases hb : readBool r with
    | error e => simp [exceptBind_error]
    | ok p =>
      obtain ⟨b, r1⟩ := p
      simp only [exceptBind_ok, ih, bind_assoc]
      cases h1 : readUint m r1 with
      | error e => simp [exceptBind_error]
      | ok q =>
        obtain ⟨x, r2⟩ := q
        simp only [exceptBind_ok]
        cases h2 : readUint n r2 with
        | error e => simp [exceptBind_error]
        | ok w =>
          obtain ⟨y, r3⟩ := w
          simp only [exceptBind_ok, Except.ok.injEq, Prod.mk.injEq, and_true, true_and]
          rw [pow_succ]
          ring

/-! ### Aligned-read lemmas -/

theorem readUint_load (n a : Nat) (bs : List Nat) (hn : 1 ≤ n) :
    readUint n ⟨[], a :: bs⟩ = readUint n ⟨byteBits a, bs⟩ := by
  obtain ⟨m, rfl⟩ : ∃ m, n = m + 1 := ⟨n - 1, by omega⟩
  simp only [readUint]
  have h1 : readBool ⟨[], a :: bs⟩ = .ok (decide (a % 2 = 1), ⟨natBits 7 (a / 2), bs⟩) := rfl
  have h2 : readBool ⟨byteBits a, bs⟩ = .ok (decide (a % 2 = 1), ⟨natBits 7 (a / 2), bs⟩) := rfl
  rw [h1, h2]

theorem readUint8_byte (a : Nat) (bs : List Nat) :
    readUint 8 ⟨[], a :: bs⟩ = .ok (a % 256, ⟨[], bs⟩) := by
  rw [readUint_load 8 a bs (by omega)]
  have h := readUint_buf (byteBits a) [] bs
  rw [List.append_nil] at h
  have hlen : (byteBits a).length = 8 := natBits_length 8 a
  rw [hlen] at h
  rw [h]
  have : lsbVal (byteBits a) = a % 2 ^ 8 := lsbVal_natBits 8 a
  rw [this]
  norm_num

theorem readUint16_bytes (a b : Nat) (bs : List Nat) (ha : a < 256) (hb : b < 256) :
    readUint 16 ⟨[], a :: b :: bs⟩ = .ok (a + 256 * b, ⟨[], bs⟩) := by
  have h := readUint_add 8 8 ⟨[], a :: b :: bs⟩
  simp only [readUint8_byte, exceptBind_ok] at h
  have h16 : (8 + 8 : Nat) = 16 := by norm_num
  rw [h16] at h
  rw [h, Nat.mod_eq_of_lt ha, Nat.mod_eq_of_lt hb]
  norm_num

theorem readU8s_bytes (c rest : List Nat) (hc : ∀ b ∈ c, b < 256) :
    readU8s c.length ⟨[], c ++ rest⟩ = .ok (c, ⟨[], rest⟩) := by
  induction c with
  | nil => rfl
  | cons b c ih =>
    simp only [readU8s, readNUints, List.length_cons, List.cons_append]
    rw [readUint8_byte]
    simp only [exceptBind_ok]
    have ih2 := ih (fun x hx => hc x (List.mem_cons_of_mem b hx))
    simp only [readU8s] at ih2
    rw [ih2]
    simp only [exceptBind_ok]
    rw [Nat.mod_eq_of_lt (hc b (List.mem_cons_self b c))]

theorem readBool_error_eof {r : BitReader} {e : Err} (h : readBool r = .error e) :
    e = .unexpectedEof := by
  obtain ⟨buf, inner⟩ := r
  cases buf with
  | cons x xs => simp [readBool] at h
  | nil =>
    cases inner with
    | nil =>
      simp only [readBool, Except.error.injEq] at h
      exact h.symm
    | cons y ys => simp [readBool] at h

theorem readUint_error_eof :
    ∀ (n : Nat) (r : BitReader) (e : Err), readUint n r = .error e → e = .unexpectedEof := by
  intro n
  induction n with
  | zero => intro r e h; simp [readUint] at h
  | succ n ih =>
    intro r e h
    simp only [readUint] at h
    cases hb : readBool r with
    | error e2 =>
      rw [hb, exceptBind_error] at h
      injection h with h1
      exact h1 ▸ readBool_error_eof hb
    | ok p =>
      rw [hb, exceptBind_ok] at h
      cases hu : readUint n p.2 with
      | error e2 =>
        rw [hu] at h
        rw [exceptBind_error] at h
        injection h with h1
        exact h1 ▸ ih p.2 e2 hu
      | ok q => rw [hu, exceptBind_ok] at h; simp at h

theorem readNUints_error_eof :
    ∀ (w n : Nat) (r : BitReader) (e : Err), readNUints w n r = .error e → e = .unexpectedEof := by
  intro w n
  induction n with
  | zero => intro r e h; simp [readNUints] at h
  | succ n ih =>
    intro r e h
    simp only [readNUints] at h
    cases hb : readUint w r with
    | error e2 =>
      rw [hb, exceptBind_error] at h
      injection h with h1
      exact h1 ▸ readUint_error_eof w r e2 hb
    | ok p =>
      rw [hb, exceptBind_ok] at h
      cases hu : readNUints w n p.2 with
      | error e2 =>
        rw [hu, exceptBind_error] at h
        injection h with h1
        exact h1 ▸ ih p.2 e2 hu
      | ok q => rw [hu, exceptBind_ok] at h; simp at h

theorem getD_take (l : List Nat) (i k : Nat) (h : i < k) :
    (l.take k).getD i 0 = l.getD i 0 := by
  simp only [List.getD_eq_getElem?_getD, List.getElem?_take]
  rw [if_pos h]

/-! ### C10 -/

/-- C10: when `is_eof()` answers `false`, the probe is observationally
transparent — every subsequent sequence of bit reads returns the same
bits and the same results as on the unprobed reader (the loaded byte is
retained in the buffer). -/
theorem c10_isEof_transparent (r : BitReader) (h : (isEof r).1 = false) :
    ∀ n : Nat, (readBits n (isEof r).2).map Prod.fst = (readBits n r).map Prod.fst := by
  obtain ⟨buf, inner⟩ := r
  cases buf with
  | cons x xs => intro n; rfl
  | nil =>
    cases inner with
    | nil => simp [isEof] at h
    | cons y ys =>
      intro n
      cases n with
      | zero => rfl
      | succ n =>
        have hb : readBool ⟨[], y :: ys⟩ =
            .ok (decide (y % 2 = 1), ⟨natBits 7 (y / 2), ys⟩) := rfl
        have hb2 : readBool (isEof (⟨[], y :: ys⟩ : BitReader)).2 =
            .ok (decide (y % 2 = 1), ⟨natBits 7 (y / 2), ys⟩) := rfl
        simp only [readBits, hb, hb2]

/-- Witness for C10 at a concrete reader and read length. -/
theorem c10_isEof_transparent_witness :
    (isEof (BitReader.new [7])).1 = false ∧
      (readBits 3 (isEof (BitReader.new [7])).2).map Prod.fst =
        (readBits 3 (BitReader.new [7])).map Prod.fst :=
  ⟨by decide, c10_isEof_transparent (BitReader.new [7]) (by decide) 3⟩

/-! ### C5 -/

/-- C5 (counterexample): at `length_minus_three = 12` the source's
extra-bit count is 1, not `12 / 4 - 1 = 2` as the claim's formula says. -/
theorem c5_counterexample : ¬ (backRefLengthExtraBits 12 = 12 / 4 - 1) := by
  have hlog : Nat.log2 12 = 3 := by simp [Nat.log2]
  simp [backRefLengthExtraBits, hlog]

/-- C5 (amended): for `8 ≤ length_minus_three ≤ 254` the extra-bit count
is `⌊log2 length_minus_three⌋ - 2`, and this agrees with the
`(code - 257) / 4 - 1` extra-bit count the decoder reads for the
corresponding length code. -/
theorem c5_extra_bits_log2 (l3 : Nat) (h1 : 8 ≤ l3) (h2 : l3 ≤ 254) :
    backRefLengthExtraBits l3 = Nat.log2 l3 - 2 ∧
      backRefLengthExtraBits l3 = (backRefLengthCode l3 - 257) / 4 - 1 := by
  have hl0 : l3 ≠ 0 := by omega
  have hg3 : 3 ≤ Nat.log2 l3 := (Nat.le_log2 hl0).mpr (by omega)
  have hr : l3 / 2 ^ (Nat.log2 l3 - 2) % 4 < 4 := Nat.mod_lt _ (by norm_num)
  have he : backRefLengthExtraBits l3 = Nat.log2 l3 - 2 := by
    unfold backRefLengthExtraBits
    rw [if_neg (by omega), if_pos h2]
  refine ⟨he, ?_⟩
  rw [he]
  unfold backRefLengthCode
  rw [if_neg (by omega), if_pos h2]
  omega

/-- Witness for C5's amended statement at `length_minus_three = 12`. -/
theorem c5_extra_bits_log2_witness :
    (8 ≤ 12 ∧ 12 ≤ 254) ∧
      (backRefLengthExtraBits 12 = Nat.log2 12 - 2 ∧
        backRefLengthExtraBits 12 = (backRefLengthCode 12 - 257) / 4 - 1) :=
  ⟨⟨by decide, by decide⟩, c5_extra_bits_log2 12 (by decide) (by decide)⟩

/-! ### C2 -/

/-- C2 (the code at the failing input): for the on-wire FLG byte `0x08`
(FNAME set per RFC 1952 bit 3), the decoder's `flg.reverse()` makes it
bind `fname := false` and `fcomment := true` — the flag bits are read
from bit 7 downwards, not bit 0 upwards. -/
theorem c2_flg_bit_reversed :
    readGzipFlags (BitReader.new [8]) =
      .ok (⟨false, false, false, false, true⟩, ⟨[], []⟩) := by rfl

/-! ### C8 -/

/-- C8: the back-reference loop emits bytes one at a time, each fetched
from the window after the previous push, so the output replicates the
most recently emitted bytes with period `distance`: byte `i` equals the
window byte at offset `d1 - (i mod (d1+1))` before the loop.  In
particular distance 1 (`d1 = 0`) emits a run of `L` copies of the last
byte. -/
theorem c8_backref_overlap (buf : OutBuffer) (d1 L : Nat)
    (hd : d1 ≤ 32767) (hlt : d1 < buf.data.length) :
    ∃ w buf', backRefLoop buf d1 L = some (w, buf') ∧ w.length = L ∧
      (∀ i, i < L → w.getD i 0 = buf.data.getD (d1 - i % (d1 + 1)) 0) ∧
      (d1 = 0 → w = List.replicate L (buf.data.getD 0 0)) := by
  induction L generalizing buf with
  | zero =>
    exact ⟨[], buf, rfl, rfl, fun i hi => absurd hi (by omega), fun _ => rfl⟩
  | succ L ih =>
    set b := buf.data.getD d1 0 with hbdef
    have hget : buf.get d1 = some b := by
      simp only [OutBuffer.get, hbdef, List.getD_eq_getElem?_getD]
      rw [List.getElem?_eq_getElem hlt]
      rfl
    have hlt2 : d1 < (buf.push b).data.length := by
      simp only [OutBuffer.push, List.length_cons, List.length_take]
      omega
    obtain ⟨w, buf', hloop, hlen, hpt, hrep⟩ := ih (buf.push b) hlt2
    refine ⟨b :: w, buf', ?_, by simp [hlen], ?_, ?_⟩
    · simp only [backRefLoop, hget, hloop]
      rfl
    · intro i hi
      cases i with
      | zero =>
        simp only [List.getD_cons_zero, Nat.zero_mod, Nat.sub_zero]
      | succ j =>
        rw [List.getD_cons_succ]
        have hj : j < L := by omega
        rw [hpt j hj]
        have hq := Nat.div_add_mod j (d1 + 1)
        have hmlt : j % (d1 + 1) < d1 + 1 := Nat.mod_lt _ (by omega)
        rcases Nat.lt_or_ge (j % (d1 + 1)) d1 with hm | hm
        · -- within the period: the fetched byte moves one step back
          have hsplit : j + 1 = (j % (d1 + 1) + 1) + (d1 + 1) * (j / (d1 + 1)) := by omega
          have hmod : (j + 1) % (d1 + 1) = j % (d1 + 1) + 1 := by
            rw [hsplit, Nat.add_mul_mod_self_left, Nat.mod_eq_of_lt (by omega)]
          rw [hmod]
          simp only [OutBuffer.push]
          have hge : 1 ≤ d1 - j % (d1 + 1) := by omega
          obtain ⟨k, hk⟩ : ∃ k, d1 - j % (d1 + 1) = k + 1 := ⟨d1 - j % (d1 + 1) - 1, by omega⟩
          rw [hk, List.getD_cons_succ, getD_take _ _ _ (by omega)]
          congr 1
          omega
        · -- period boundary: wrap to the byte just pushed
          have hmeq : j % (d1 + 1) = d1 := by omega
          have hdist : (d1 + 1) * (j / (d1 + 1) + 1) = (d1 + 1) * (j / (d1 + 1)) + (d1 + 1) := by
            ring
          have hsplit : j + 1 = 0 + (d1 + 1) * (j / (d1 + 1) + 1) := by omega
          have hmod : (j + 1) % (d1 + 1) = 0 := by
            rw [hsplit, Nat.add_mul_mod_self_left, Nat.zero_mod]
          rw [hmod, hmeq]
          simp only [Nat.sub_self, Nat.sub_zero, OutBuffer.push, List.getD_cons_zero]
    · intro hd0
      subst hd0
      have hb0 : (buf.push b).data.getD 0 0 = b := by
        simp [OutBuffer.push, List.getD_cons_zero]
      rw [List.replicate_succ]
      rw [hrep rfl, hb0]

/-- Witness for C8: window holding one byte `5`, distance 1, length 3. -/
theorem c8_backref_overlap_witness :
    (0 ≤ 32767 ∧ 0 < (OutBuffer.mk [5]).data.length) ∧
      ∃ w buf', backRefLoop ⟨[5]⟩ 0 3 = some (w, buf') ∧ w.length = 3 ∧
        (∀ i, i < 3 → w.getD i 0 = (OutBuffer.mk [5]).data.getD (0 - i % (0 + 1)) 0) ∧
        (0 = 0 → w = List.replicate 3 ((OutBuffer.mk [5]).data.getD 0 0)) :=
  ⟨⟨by decide, by decide⟩, c8_backref_overlap ⟨[5]⟩ 0 3 (by decide) (by decide)⟩

/-! ### C7 -/

/-- C7: on a stored block whose four header bytes are available, the
decoder fails with `InvalidData` iff `NLEN` is not the bitwise complement
of `LEN` (`65535 - LEN`); when they match it copies exactly `LEN` raw
bytes from the input to the output unchanged (any shortfall of the raw
bytes is `UnexpectedEof`, not `InvalidData`). -/
theorem c7_stored_len_nlen (f : Bool) (ob : OutBuffer) (buf : List Bool)
    (l0 l1 n0 n1 : Nat) (rest : List Nat)
    (h0 : l0 < 256) (h1 : l1 < 256) (h2 : n0 < 256) (h3 : n1 < 256) :
    ((advanceStage ⟨ob, .parsedMode f .noCompression⟩
        ⟨buf, l0 :: l1 :: n0 :: n1 :: rest⟩ = .error .invalidData) ↔
      n0 + 256 * n1 ≠ 65535 - (l0 + 256 * l1)) ∧
    (n0 + 256 * n1 = 65535 - (l0 + 256 * l1) →
      l0 + 256 * l1 ≤ rest.length → (∀ b ∈ rest, b < 256) →
      advanceStage ⟨ob, .parsedMode f .noCompression⟩
          ⟨buf, l0 :: l1 :: n0 :: n1 :: rest⟩ =
        .ok (⟨ob, if f then .complete else .newBlock⟩,
          ⟨[], rest.drop (l0 + 256 * l1)⟩, rest.take (l0 + 256 * l1))) := by
  have hbody : noCompressionBody ⟨buf, l0 :: l1 :: n0 :: n1 :: rest⟩ =
      if 65535 - (l0 + 256 * l1) ≠ n0 + 256 * n1 then .error .invalidData
      else readU8s (l0 + 256 * l1) ⟨[], rest⟩ := by
    unfold noCompressionBody
    simp only [skipToByteEnd]
    rw [readUint16_bytes l0 l1 _ h0 h1]
    simp only [exceptBind_ok]
    rw [readUint16_bytes n0 n1 _ h2 h3]
    simp only [exceptBind_ok]
  have hadv : advanceStage ⟨ob, .parsedMode f .noCompression⟩
      ⟨buf, l0 :: l1 :: n0 :: n1 :: rest⟩ =
      (noCompressionBody ⟨buf, l0 :: l1 :: n0 :: n1 :: rest⟩ >>= fun p =>
        .ok (ob, p.2, p.1)) >>= fun res =>
        if f then .ok (⟨res.1, .complete⟩, skipToByteEnd res.2.1, res.2.2)
        else .ok (⟨res.1, .newBlock⟩, res.2.1, res.2.2) := rfl
  by_cases hne : n0 + 256 * n1 = 65535 - (l0 + 256 * l1)
  · constructor
    · rw [hadv, hbody, if_neg (by omega)]
      constructor
      · intro hcontra
        cases hu : readU8s (l0 + 256 * l1) ⟨[], rest⟩ with
        | error e =>
          have he := readNUints_error_eof 8 (l0 + 256 * l1) ⟨[], rest⟩ e hu
          rw [hu, exceptBind_error, exceptBind_error, he] at hcontra
          exact absurd hcontra (by simp)
        | ok p =>
          rw [hu, exceptBind_ok, exceptBind_ok] at hcontra
          cases f <;> simp at hcontra
      · intro hcontra; exact absurd hne hcontra
    · intro _ hle hbytes
      rw [hadv, hbody, if_neg (by omega)]
      have hsplit : rest.take (l0 + 256 * l1) ++ rest.drop (l0 + 256 * l1) = rest :=
        List.take_append_drop _ _
      have hlen2 : (rest.take (l0 + 256 * l1)).length = l0 + 256 * l1 := by
        rw [List.length_take]
        omega
      have hu := readU8s_bytes (rest.take (l0 + 256 * l1)) (rest.drop (l0 + 256 * l1))
        (fun x hx => hbytes x (List.take_subset _ _ hx))
      rw [hlen2, hsplit] at hu
      rw [hu, exceptBind_ok, exceptBind_ok]
      cases f <;> simp [skipToByteEnd]
  · constructor
    · rw [hadv, hbody, if_pos (by omega)]
      simp only [exceptBind_error]
      exact ⟨fun _ => hne, fun _ => trivial⟩
    · intro hcontra; exact absurd hcontra hne

/-- Witness for C7: block header `LEN = 2`, `NLEN = 65533`, two raw
bytes. -/
theorem c7_stored_len_nlen_witness :
    (((advanceStage ⟨⟨[]⟩, .parsedMode true .noCompression⟩
        ⟨[], 2 :: 0 :: 253 :: 255 :: [7, 9]⟩ = .error .invalidData) ↔
      253 + 256 * 255 ≠ 65535 - (2 + 256 * 0)) ∧
    (253 + 256 * 255 = 65535 - (2 + 256 * 0) →
      2 + 256 * 0 ≤ [7, 9].length → (∀ b ∈ [7, 9], b < 256) →
      advanceStage ⟨⟨[]⟩, .parsedMode true .noCompression⟩
          ⟨[], 2 :: 0 :: 253 :: 255 :: [7, 9]⟩ =
        .ok (⟨⟨[]⟩, if true then .complete else .newBlock⟩,
          ⟨[], [7, 9].drop (2 + 256 * 0)⟩, [7, 9].take (2 + 256 * 0)))) :=
  c7_stored_len_nlen true ⟨[]⟩ [] 2 0 253 255 [7, 9]
    (by decide) (by decide) (by decide) (by decide)

/-! ### C6: arithmetic of the length and distance code tables -/

theorem length_code_facts (l3 : Nat) (h8 : 8 ≤ l3) (h254 : l3 ≤ 254) :
    8 ≤ backRefLengthCode l3 - 257 ∧ backRefLengthCode l3 - 257 ≤ 27 ∧
    (backRefLengthCode l3 - 257) / 4 - 1 = backRefLengthExtraBits l3 ∧
    lengthExtraVal l3 < 2 ^ ((backRefLengthCode l3 - 257) / 4 - 1) ∧
    2 ^ ((backRefLengthCode l3 - 257) / 4 + 1) +
      2 ^ ((backRefLengthCode l3 - 257) / 4 - 1) * ((backRefLengthCode l3 - 257) % 4) +
      lengthExtraVal l3 = l3 := by
  have hl0 : l3 ≠ 0 := by omega
  have hg3 : 3 ≤ Nat.log2 l3 := (Nat.le_log2 hl0).mpr (by omega)
  have hg7 : Nat.log2 l3 ≤ 7 := by
    have h := (Nat.log2_lt hl0).mpr (show l3 < 2 ^ 8 by omega)
    omega
  have hpow_le : 2 ^ Nat.log2 l3 ≤ l3 := Nat.log2_self_le hl0
  have hlt : l3 < 2 ^ (Nat.log2 l3 + 1) := Nat.lt_log2_self
  set g := Nat.log2 l3 with hgdef
  have hrlt : l3 / 2 ^ (g - 2) % 4 < 4 := Nat.mod_lt _ (by norm_num)
  have hc : backRefLengthCode l3 - 257 = 4 * (g - 1) + l3 / 2 ^ (g - 2) % 4 := by
    unfold backRefLengthCode
    rw [if_neg (by omega), if_pos h254, ← hgdef]
    omega
  have hp4 : (2 : Nat) ^ g = 2 ^ (g - 2) * 4 := by
    have hadd : g - 2 + 2 = g := by omega
    rw [← hadd, pow_add]
    norm_num
  have hm : l3 = 2 ^ g + (l3 - 2 ^ g) := by omega
  set m := l3 - 2 ^ g with hmdef
  have hmlt : m < 2 ^ g := by
    have hs : (2 : Nat) ^ (g + 1) = 2 ^ g * 2 := by rw [pow_succ]
    omega
  have hdiv : l3 / 2 ^ (g - 2) = 4 + m / 2 ^ (g - 2) := by
    conv_lhs => rw [hm, hp4]
    rw [Nat.mul_add_div (Nat.two_pow_pos _)]
  have hmdivlt : m / 2 ^ (g - 2) < 4 := by
    rw [Nat.div_lt_iff_lt_mul (Nat.two_pow_pos _)]
    omega
  have hr4 : l3 / 2 ^ (g - 2) % 4 = m / 2 ^ (g - 2) := by
    rw [hdiv, Nat.add_mod_left]
    exact Nat.mod_eq_of_lt hmdivlt
  have hdm := Nat.div_add_mod m (2 ^ (g - 2))
  have hmodlt : m % 2 ^ (g - 2) < 2 ^ (g - 2) := Nat.mod_lt _ (Nat.two_pow_pos _)
  have hc4 : (backRefLengthCode l3 - 257) / 4 = g - 1 := by omega
  have hcm : (backRefLengthCode l3 - 257) % 4 = m / 2 ^ (g - 2) := by omega
  have hebc : backRefLengthExtraBits l3 = g - 2 := by
    unfold backRefLengthExtraBits
    rw [if_neg (by omega), if_pos h254, ← hgdef]
  have e1 : g - 1 + 1 = g := by omega
  have e2 : g - 1 - 1 = g - 2 := by omega
  have hbase : 2 ^ ((backRefLengthCode l3 - 257) / 4 + 1) +
      2 ^ ((backRefLengthCode l3 - 257) / 4 - 1) * ((backRefLengthCode l3 - 257) % 4) =
      2 ^ g + 2 ^ (g - 2) * (m / 2 ^ (g - 2)) := by
    rw [hc4, hcm, e1, e2]
  have hev : lengthExtraVal l3 = m % 2 ^ (g - 2) := by
    unfold lengthExtraVal
    rw [hbase]
    omega
  refine ⟨by omega, by omega, by rw [hebc]; omega, ?_, ?_⟩
  · rw [hev, hc4, e2]
    exact hmodlt
  · rw [hev, hbase]
    omega

theorem distance_code_facts (d1 : Nat) (h4 : 4 ≤ d1) (h32k : d1 ≤ 32767) :
    4 ≤ backRefDistanceCode d1 ∧ backRefDistanceCode d1 ≤ 29 ∧
    backRefDistanceCode d1 / 2 - 1 = backRefDistanceExtraBits d1 ∧
    distExtraVal d1 < 2 ^ (backRefDistanceCode d1 / 2 - 1) ∧
    2 ^ (backRefDistanceCode d1 / 2) +
      2 ^ (backRefDistanceCode d1 / 2 - 1) * (backRefDistanceCode d1 % 2) +
      distExtraVal d1 = d1 := by
  have hl0 : d1 ≠ 0 := by omega
  have hg2 : 2 ≤ Nat.log2 d1 := (Nat.le_log2 hl0).mpr (by omega)
  have hg14 : Nat.log2 d1 ≤ 14 := by
    have h := (Nat.log2_lt hl0).mpr (show d1 < 2 ^ 15 by omega)
    omega
  have hpow_le : 2 ^ Nat.log2 d1 ≤ d1 := Nat.log2_self_le hl0
  have hlt : d1 < 2 ^ (Nat.log2 d1 + 1) := Nat.lt_log2_self
  set g := Nat.log2 d1 with hgdef
  have hrlt : d1 / 2 ^ (g - 1) % 2 < 2 := Nat.mod_lt _ (by norm_num)
  have hc : backRefDistanceCode d1 = 2 * g + d1 / 2 ^ (g - 1) % 2 := by
    unfold backRefDistanceCode
    rw [if_neg (by omega), if_pos h32k, ← hgdef]
  have hp2 : (2 : Nat) ^ g = 2 ^ (g - 1) * 2 := by
    have hadd : g - 1 + 1 = g := by omega
    rw [← hadd, pow_add]
    norm_num
  have hm : d1 = 2 ^ g + (d1 - 2 ^ g) := by omega
  set m := d1 - 2 ^ g with hmdef
  have hmlt : m < 2 ^ g := by
    have hs : (2 : Nat) ^ (g + 1) = 2 ^ g * 2 := by rw [pow_succ]
    omega
  have hdiv : d1 / 2 ^ (g - 1) = 2 + m / 2 ^ (g - 1) := by
    conv_lhs => rw [hm, hp2]
    rw [Nat.mul_add_div (Nat.two_pow_pos _)]
  have hmdivlt : m / 2 ^ (g - 1) < 2 := by
    rw [Nat.div_lt_iff_lt_mul (Nat.two_pow_pos _)]
    omega
  have hr2 : d1 / 2 ^ (g - 1) % 2 = m / 2 ^ (g - 1) := by
    rw [hdiv, Nat.add_mod_left]
    exact Nat.mod_eq_of_lt hmdivlt
  have hdm := Nat.div_add_mod m (2 ^ (g - 1))
  have hmodlt : m % 2 ^ (g - 1) < 2 ^ (g - 1) := Nat.mod_lt _ (Nat.two_pow_pos _)
  have hc2 : backRefDistanceCode d1 / 2 = g := by omega
  have hcm : backRefDistanceCode d1 % 2 = m / 2 ^ (g - 1) := by omega
  have hebc : backRefDistanceExtraBits d1 = g - 1 := by
    unfold backRefDistanceExtraBits
    rw [if_neg (by omega), if_pos h32k, ← hgdef]
  have hbase : 2 ^ (backRefDistanceCode d1 / 2) +
      2 ^ (backRefDistanceCode d1 / 2 - 1) * (backRefDistanceCode d1 % 2) =
      2 ^ g + 2 ^ (g - 1) * (m / 2 ^ (g - 1)) := by
    rw [hc2, hcm]
  have hev : distExtraVal d1 = m % 2 ^ (g - 1) := by
    unfold distExtraVal
    rw [hbase]
    omega
  refine ⟨by omega, by omega, by rw [hebc]; omega, ?_, ?_⟩
  · rw [hev, hc2]
    exact hmodlt
  · rw [hev, hbase]
    omega

theorem parseLengthValue_spec (l3 : Nat) (hl : l3 < 256) (r : BitReader)
    (rest2 : List Bool)
    (hb : bitsOf r = natBits (backRefLengthExtraBits l3) (lengthExtraVal l3) ++ rest2) :
    ∃ r1, parseLengthValue (backRefLengthCode l3 - 257) r = .ok (l3, r1) ∧
      bitsOf r1 = rest2 := by
  rcases le_or_lt l3 7 with h7 | h7
  · have hc : backRefLengthCode l3 - 257 = l3 := by
      unfold backRefLengthCode
      rw [if_pos h7]
      omega
    have hebc : backRefLengthExtraBits l3 = 0 := by
      unfold backRefLengthExtraBits
      rw [if_pos h7]
    rw [hebc] at hb
    simp only [natBits, List.nil_append] at hb
    rw [hc]
    unfold parseLengthValue
    rw [if_pos h7]
    exact ⟨r, rfl, hb⟩
  · rcases le_or_lt l3 254 with h254 | h255
    · obtain ⟨hc8, hc27, hebc, helt, hsum⟩ := length_code_facts l3 (by omega) h254
      unfold parseLengthValue
      rw [if_neg (by omega), if_pos hc27]
      rw [← hebc] at hb
      obtain ⟨r1, hru, hb1⟩ := readUint_bitsOf hb
      rw [natBits_length, lsbVal_natBits, Nat.mod_eq_of_lt helt] at hru
      rw [hru]
      simp only [exceptBind_ok]
      exact ⟨r1, by rw [hsum], hb1⟩
    · have h255e : l3 = 255 := by omega
      subst h255e
      have hc : backRefLengthCode 255 - 257 = 28 := by
        unfold backRefLengthCode
        norm_num
      have hebc : backRefLengthExtraBits 255 = 0 := by
        unfold backRefLengthExtraBits
        norm_num
      rw [hebc] at hb
      simp only [natBits, List.nil_append] at hb
      rw [hc]
      unfold parseLengthValue
      rw [if_neg (by norm_num), if_neg (by norm_num)]
      exact ⟨r, rfl, hb⟩

theorem parseDistanceValue_spec (d1 : Nat) (hd : d1 < 32768) (r : BitReader)
    (rest2 : List Bool)
    (hb : bitsOf r = natBits (backRefDistanceExtraBits d1) (distExtraVal d1) ++ rest2) :
    ∃ r1, parseDistanceValue (backRefDistanceCode d1) r = .ok (d1, r1) ∧
      bitsOf r1 = rest2 := by
  rcases le_or_lt d1 3 with h3 | h3
  · have hc : backRefDistanceCode d1 = d1 := by
      unfold backRefDistanceCode
      rw [if_pos h3]
    have hebc : backRefDistanceExtraBits d1 = 0 := by
      unfold backRefDistanceExtraBits
      rw [if_pos h3]
    rw [hebc] at hb
    simp only [natBits, List.nil_append] at hb
    rw [hc]
    unfold parseDistanceValue
    rw [if_pos h3]
    exact ⟨r, rfl, hb⟩
  · obtain ⟨hc4, hc29, hebc, helt, hsum⟩ := distance_code_facts d1 (by omega) (by omega)
    unfold parseDistanceValue
    rw [if_neg (by omega), if_pos hc29]
    rw [← hebc] at hb
    obtain ⟨r1, hru, hb1⟩ := readUint_bitsOf hb
    rw [natBits_length, lsbVal_natBits, Nat.mod_eq_of_lt helt] at hru
    rw [hru]
    simp only [exceptBind_ok]
    exact ⟨r1, by rw [hsum], hb1⟩

theorem fixed_distance_decode_spec (dc : Nat) (hdc : dc < 32) (r : BitReader)
    (rest2 : List Bool) (hb : bitsOf r = natBits 5 dc ++ rest2) :
    ∃ r1, DistanceEncoding.decode .fixed r = .ok (dc, r1) ∧ bitsOf r1 = rest2 := by
  obtain ⟨r1, hru, hb1⟩ := readUint_bitsOf hb
  rw [natBits_length, lsbVal_natBits] at hru
  rw [Nat.mod_eq_of_lt (show dc < 2 ^ 5 by norm_num; omega)] at hru
  exact ⟨r1, hru, hb1⟩

theorem distance_code_lt_32 (d1 : Nat) (hd : d1 < 32768) :
    backRefDistanceCode d1 < 32 := by
  rcases le_or_lt d1 3 with h3 | h3
  · unfold backRefDistanceCode
    rw [if_pos h3]
    omega
  · obtain ⟨_, hc29, _, _, _⟩ := distance_code_facts d1 (by omega) (by omega)
    omega

theorem length_code_ge_257 (l3 : Nat) : 257 ≤ backRefLengthCode l3 := by
  unfold backRefLengthCode
  omega

theorem length_code_le_285 (l3 : Nat) (hl : l3 < 256) :
    backRefLengthCode l3 ≤ 285 := by
  rcases le_or_lt l3 7 with h7 | h7
  · unfold backRefLengthCode
    rw [if_pos h7]
    omega
  · rcases le_or_lt l3 254 with h254 | h255
    · obtain ⟨_, hc27, _, _, _⟩ := length_code_facts l3 (by omega) h254
      omega
    · unfold backRefLengthCode
      rw [if_neg (by omega), if_neg (by omega)]

/-! ### C6 -/

/-- C6: encoding any `length_minus_three ∈ 0..=255` to its length code
plus its extra-bit field, and any `distance_minus_one ∈ 0..=32767` to its
distance code plus its extra-bit field, and decoding the code and those
bits through `parse_symbol`'s back-reference branch yields the same pair.
The distance code travels through the `Fixed` distance encoding, which
reads exactly the 5 bits fed to it. -/
theorem c6_parse_symbol_roundtrip (l3 d1 : Nat) (r : BitReader) (rest : List Bool)
    (hl : l3 < 256) (hd : d1 < 32768)
    (hbits : bitsOf r =
      natBits (backRefLengthExtraBits l3) (lengthExtraVal l3) ++
      (natBits 5 (backRefDistanceCode d1) ++
       (natBits (backRefDistanceExtraBits d1) (distExtraVal d1) ++ rest))) :
    ∃ r3, parseSymbolAfterCode (backRefLengthCode l3) .fixed r =
        .ok (.backReference l3 d1, r3) ∧ bitsOf r3 = rest := by
  have hge := length_code_ge_257 l3
  have hle := length_code_le_285 l3 hl
  unfold parseSymbolAfterCode
  rw [if_neg (by omega), if_neg (by omega), if_pos hle]
  obtain ⟨r1, hpl, hb1⟩ := parseLengthValue_spec l3 hl r _ hbits
  rw [hpl]
  simp only [exceptBind_ok]
  obtain ⟨r2, hfd, hb2⟩ :=
    fixed_distance_decode_spec (backRefDistanceCode d1) (distance_code_lt_32 d1 hd) r1 _ hb1
  rw [hfd]
  simp only [exceptBind_ok]
  obtain ⟨r3, hpd, hb3⟩ := parseDistanceValue_spec d1 hd r2 _ hb2
  rw [hpd]
  simp only [exceptBind_ok]
  exact ⟨r3, rfl, hb3⟩

/-- Witness for C6 at `length_minus_three = 4`, `distance_minus_one = 2`
(codes 261 and 2, no extra bits). -/
theorem c6_parse_symbol_roundtrip_witness :
    (4 < 256 ∧ 2 < 32768) ∧
      ∃ r3, parseSymbolAfterCode (backRefLengthCode 4) .fixed
          ⟨natBits (backRefLengthExtraBits 4) (lengthExtraVal 4) ++
            (natBits 5 (backRefDistanceCode 2) ++
             (natBits (backRefDistanceExtraBits 2) (distExtraVal 2) ++ [])), []⟩ =
        .ok (.backReference 4 2, r3) ∧ bitsOf r3 = [] :=
  ⟨⟨by decide, by decide⟩,
    c6_parse_symbol_roundtrip 4 2 _ [] (by decide) (by decide) (by simp [bitsOf])⟩

/-! ### C9: encoder block structure -/

theorem fillBlock_spec (cs : List (List Nat)) (space : Nat) (hsp : 0 < space)
    (hne : ∀ c ∈ cs, c ≠ []) :
    (fillBlock cs space).1 = cs.flatten.take space ∧
    ((fillBlock cs space).2.1 = true ↔ cs.flatten.length < space) ∧
    (fillBlock cs space).2.2.flatten = cs.flatten.drop space ∧
    (∀ c ∈ (fillBlock cs space).2.2, c ≠ []) := by
  induction cs generalizing space with
  | nil =>
    refine ⟨by simp [fillBlock], ?_, by simp [fillBlock], by simp [fillBlock]⟩
    simp only [fillBlock, List.flatten_nil, List.length_nil]
    exact ⟨fun _ => hsp, fun _ => trivial⟩
  | cons c rest ih =>
    have hc0 : ¬ (c.length = 0) := by
      have hcc := hne c (List.mem_cons_self c rest)
      simpa [List.length_eq_zero] using hcc
    have hrest : ∀ x ∈ rest, x ≠ [] := fun x hx => hne x (List.mem_cons_of_mem c hx)
    rcases Nat.lt_trichotomy c.length space with hlt | heq | hgt
    · have hrec := ih (space - c.length) (by omega) hrest
      simp only [fillBlock, if_neg hc0, if_pos hlt, List.flatten_cons]
      refine ⟨?_, ?_, ?_, hrec.2.2.2⟩
      · rw [List.take_append_eq_append_take,
          List.take_of_length_le (by omega), hrec.1]
      · rw [hrec.2.1]
        simp only [List.length_append]
        omega
      · rw [List.drop_append_eq_append_drop,
          List.drop_eq_nil_of_le (by omega), hrec.2.2.1, List.nil_append]
    · simp only [fillBlock, if_neg hc0, if_neg (by omega : ¬ c.length < space),
        if_pos heq, List.flatten_cons]
      refine ⟨?_, ?_, ?_, hrest⟩
      · rw [List.take_append_eq_append_take, List.take_of_length_le (by omega),
          show space - c.length = 0 by omega]
        simp
      · simp only [List.length_append]
        constructor
        · intro hcontra
          simp at hcontra
        · intro hcontra
          omega
      · rw [List.drop_append_eq_append_drop, List.drop_eq_nil_of_le (by omega),
          List.nil_append, show space - c.length = 0 by omega, List.drop_zero]
    · simp only [fillBlock, if_neg hc0, if_neg (by omega : ¬ c.length < space),
        if_neg (by omega : ¬ c.length = space), List.flatten_cons]
      refine ⟨?_, ?_, ?_, ?_⟩
      · rw [List.take_append_of_le_length (by omega)]
      · simp only [List.length_append]
        constructor
        · intro hcontra
          simp at hcontra
        · intro hcontra
          omega
      · rw [List.drop_append_of_le_length (by omega)]
      · intro x hx
        rcases List.mem_cons.mp hx with hx1 | hx2
        · subst hx1
          have hdl : (c.drop space).length = c.length - space := List.length_drop ..
          intro hnil
          rw [hnil] at hdl
          simp at hdl
          omega
        · exact hrest x hx2

theorem deflateEncode_last (s : List Nat) (h : s.length < 65535) :
    deflateEncode s = encodeBlock true s := by
  unfold deflateEncode
  rw [deflateBlocks, if_pos h]
  simp

theorem deflateEncode_step (s : List Nat) (h : ¬ s.length < 65535) :
    deflateEncode s = encodeBlock false (s.take 65535) ++ deflateEncode (s.drop 65535) := by
  conv_lhs => rw [deflateEncode, deflateBlocks, if_neg h]
  rw [List.map_cons, List.flatten_cons]
  rfl

theorem encodeChunksGo_eq (fuel : Nat) :
    ∀ (cs : List (List Nat)), (∀ c ∈ cs, c ≠ []) →
      cs.flatten.length / 65535 < fuel →
      encodeChunksGo fuel cs = deflateEncode cs.flatten := by
  induction fuel with
  | zero =>
    intro cs _ hf
    omega
  | succ fuel ih =>
    intro cs hne hf
    obtain ⟨h1, h2, h3, h4⟩ := fillBlock_spec cs 65535 (by norm_num) hne
    by_cases heof : cs.flatten.length < 65535
    · have heq : (fillBlock cs 65535).2.1 = true := h2.mpr heof
      simp only [encodeChunksGo, heq, if_pos, h1]
      rw [List.take_of_length_le (by omega), deflateEncode_last _ heof]
    · have heq : (fillBlock cs 65535).2.1 = false := by
        cases hb : (fillBlock cs 65535).2.1
        · rfl
        · exact absurd (h2.mp hb) heof
      simp only [encodeChunksGo, heq, Bool.false_eq_true, if_false, h1]
      have hrec := ih (fillBlock cs 65535).2.2 h4 (by
        have hlen : (fillBlock cs 65535).2.2.flatten.length = cs.flatten.length - 65535 := by
          rw [h3, List.length_drop]
        rw [hlen]
        omega)
      rw [hrec, h3, deflateEncode_step _ heof]

theorem deflateBlocks_ne_nil (s : List Nat) : deflateBlocks s ≠ [] := by
  rw [deflateBlocks]
  split <;> simp

theorem deflateBlocks_getLast_aux :
    ∀ (fuel : Nat) (s : List Nat), s.length ≤ fuel →
      (deflateBlocks s).getLast? = some (true, s.drop (65535 * (s.length / 65535))) := by
  intro fuel
  induction fuel with
  | zero =>
    intro s hs
    rw [deflateBlocks, if_pos (by omega)]
    have hq : s.length / 65535 = 0 := by omega
    rw [hq]
    simp
  | succ fuel ih =>
    intro s hs
    by_cases h : s.length < 65535
    · rw [deflateBlocks, if_pos h]
      have hq : s.length / 65535 = 0 := by omega
      rw [hq]
      simp
    · rw [deflateBlocks, if_neg h]
      have hrec := ih (s.drop 65535) (by rw [List.length_drop]; omega)
      have hnn := deflateBlocks_ne_nil (s.drop 65535)
      obtain ⟨hd, tl, heq⟩ : ∃ hd tl, deflateBlocks (s.drop 65535) = hd :: tl := by
        cases hcc : deflateBlocks (s.drop 65535) with
        | nil => exact absurd hcc hnn
        | cons a b => exact ⟨a, b, rfl⟩
      rw [heq, List.getLast?_cons_cons, ← heq, hrec, List.drop_drop, List.length_drop]
      have harith : 65535 + 65535 * ((s.length - 65535) / 65535) =
          65535 * (s.length / 65535) := by omega
      rw [harith]

theorem deflateBlocks_getLast (s : List Nat) :
    (deflateBlocks s).getLast? = some (true, s.drop (65535 * (s.length / 65535))) :=
  deflateBlocks_getLast_aux s.length s le_rfl

/-- C9: over any well-behaved chunked byte source (every read until EOF
returns at least one byte), the encoder emits exactly the blocks of the
concatenated bytes: the last block emitted is the one whose fill loop saw
the zero-length read, it carries the remaining `length mod 65535` bytes
with its final bit set, and it is a zero-length stored block iff the
total input length is an exact multiple of 65535 (including zero). -/
theorem c9_final_empty_block (cs : List (List Nat)) (hne : ∀ c ∈ cs, c ≠ []) :
    deflateEncodeChunks cs = deflateEncode cs.flatten ∧
    ((deflateBlocks cs.flatten).getLast? = some (true, []) ↔
      cs.flatten.length % 65535 = 0) ∧
    (cs.flatten.length % 65535 ≠ 0 →
      (deflateBlocks cs.flatten).getLast? =
        some (true, cs.flatten.drop (65535 * (cs.flatten.length / 65535)))) := by
  have hlast := deflateBlocks_getLast cs.flatten
  refine ⟨?_, ?_, fun _ => hlast⟩
  · unfold deflateEncodeChunks
    exact encodeChunksGo_eq _ cs hne (by omega)
  · rw [hlast]
    simp only [Option.some.injEq, Prod.mk.injEq, true_and]
    rw [List.drop_eq_nil_iff]
    omega

/-- Witness for C9 on the two-chunk source `[[3], [4, 5]]`. -/
theorem c9_final_empty_block_witness :
    (∀ c ∈ [[3], [4, 5]], c ≠ ([] : List Nat)) ∧
    (deflateEncodeChunks [[3], [4, 5]] = deflateEncode ([[3], [4, 5]] : List (List Nat)).flatten ∧
    ((deflateBlocks ([[3], [4, 5]] : List (List Nat)).flatten).getLast? = some (true, []) ↔
      ([[3], [4, 5]] : List (List Nat)).flatten.length % 65535 = 0) ∧
    (([[3], [4, 5]] : List (List Nat)).flatten.length % 65535 ≠ 0 →
      (deflateBlocks ([[3], [4, 5]] : List (List Nat)).flatten).getLast? =
        some (true, ([[3], [4, 5]] : List (List Nat)).flatten.drop
          (65535 * (([[3], [4, 5]] : List (List Nat)).flatten.length / 65535))))) :=
  ⟨by decide, c9_final_empty_block [[3], [4, 5]] (by decide)⟩

/-! ### C1: stored-block encode/decode round trip -/

theorem decodeSteps_complete_eq (fuel : Nat) (ob : OutBuffer) (r : BitReader) :
    decodeSteps fuel ⟨ob, .complete⟩ r = some (.ok ([], r)) := by
  cases fuel <;> rfl

theorem decodeSteps_newBlock_eq (fuel : Nat) (ob : OutBuffer) (r : BitReader) :
    decodeSteps (fuel + 1) ⟨ob, .newBlock⟩ r =
      (match advanceStage ⟨ob, .newBlock⟩ r with
       | .error e => some (.error e)
       | .ok res => (decodeSteps fuel res.1 res.2.1).map fun out =>
           out.map fun p => (res.2.2 ++ p.1, p.2)) := rfl

theorem decodeSteps_parsedMode_eq (fuel : Nat) (ob : OutBuffer) (f : Bool)
    (enc : Encoding) (r : BitReader) :
    decodeSteps (fuel + 1) ⟨ob, .parsedMode f enc⟩ r =
      (match advanceStage ⟨ob, .parsedMode f enc⟩ r with
       | .error e => some (.error e)
       | .ok res => (decodeSteps fuel res.1 res.2.1).map fun out =>
           out.map fun p => (res.2.2 ++ p.1, p.2)) := rfl

theorem decodeSteps_newBlock_ok (fuel : Nat) (ob : OutBuffer) (r : BitReader)
    (st1 : DecoderState) (r1 : BitReader) (out1 : List Nat)
    (h : advanceStage ⟨ob, .newBlock⟩ r = .ok (st1, r1, out1)) :
    decodeSteps (fuel + 1) ⟨ob, .newBlock⟩ r =
      (decodeSteps fuel st1 r1).map fun out => out.map fun p => (out1 ++ p.1, p.2) := by
  rw [decodeSteps_newBlock_eq, h]

theorem decodeSteps_parsedMode_ok (fuel : Nat) (ob : OutBuffer) (f : Bool)
    (enc : Encoding) (r : BitReader) (st1 : DecoderState) (r1 : BitReader)
    (out1 : List Nat)
    (h : advanceStage ⟨ob, .parsedMode f enc⟩ r = .ok (st1, r1, out1)) :
    decodeSteps (fuel + 1) ⟨ob, .parsedMode f enc⟩ r =
      (decodeSteps fuel st1 r1).map fun out => out.map fun p => (out1 ++ p.1, p.2) := by
  rw [decodeSteps_parsedMode_eq, h]

/-- The `NewBlock` step on a stored-block header byte: final bit `f`,
encoding bits `00`, remaining five header bits discarded later. -/
theorem advance_newBlock_header (h : Nat) (f : Bool) (hh : h = if f then 1 else 0)
    (ob : OutBuffer) (tail : List Nat) :
    advanceStage ⟨ob, .newBlock⟩ ⟨[], h :: tail⟩ =
      .ok (⟨ob, .parsedMode f .noCompression⟩, ⟨natBits 5 0, tail⟩, []) := by
  subst hh
  have h7 : natBits 7 0 = natBits 2 0 ++ natBits 5 0 := by
    have happ := natBits_append 2 5 0
    simpa using happ
  have hu : readUint 2 ⟨natBits 7 0, tail⟩ = .ok (0, ⟨natBits 5 0, tail⟩) := by
    rw [h7]
    have hb := readUint_buf (natBits 2 0) (natBits 5 0) tail
    rw [natBits_length, lsbVal_natBits] at hb
    simpa using hb
  cases f
  · have hb : readBool ⟨[], (0 : Nat) :: tail⟩ = .ok (false, ⟨natBits 7 0, tail⟩) := rfl
    simp only [advanceStage, hb, exceptBind_ok, hu]
    rfl
  · have hb : readBool ⟨[], (1 : Nat) :: tail⟩ = .ok (true, ⟨natBits 7 0, tail⟩) := rfl
    simp only [advanceStage, hb, exceptBind_ok, hu]
    rfl

/-- The `ParsedMode`/stored step on a well-formed stored block: reads the
`LEN`/`NLEN` pair the encoder wrote, copies the `LEN` content bytes, and
moves to `Complete` (final) or `NewBlock`. -/
theorem advance_parsedMode_stored (f : Bool) (ob : OutBuffer) (buf : List Bool)
    (c rest : List Nat) (hc : ∀ b ∈ c, b < 256) (hlen : c.length ≤ 65535) :
    advanceStage ⟨ob, .parsedMode f .noCompression⟩
        ⟨buf, (u16le c.length ++ u16le (65535 - c.length) ++ c) ++ rest⟩ =
      .ok (⟨ob, if f then .complete else .newBlock⟩, ⟨[], rest⟩, c) := by
  have hexp : (u16le c.length ++ u16le (65535 - c.length) ++ c) ++ rest =
      (c.length % 256) :: (c.length / 256 % 256) :: ((65535 - c.length) % 256) ::
        ((65535 - c.length) / 256 % 256) :: (c ++ rest) := by
    simp [u16le]
  rw [hexp]
  have hv1 : c.length % 256 + 256 * (c.length / 256 % 256) = c.length := by omega
  have hv2 : (65535 - c.length) % 256 + 256 * ((65535 - c.length) / 256 % 256) =
      65535 - c.length := by omega
  have hbody : noCompressionBody
      ⟨buf, (c.length % 256) :: (c.length / 256 % 256) :: ((65535 - c.length) % 256) ::
        ((65535 - c.length) / 256 % 256) :: (c ++ rest)⟩ = .ok (c, ⟨[], rest⟩) := by
    unfold noCompressionBody
    simp only [skipToByteEnd]
    rw [readUint16_bytes _ _ _ (by omega) (by omega)]
    simp only [exceptBind_ok]
    rw [readUint16_bytes _ _ _ (by omega) (by omega)]
    simp only [exceptBind_ok, hv1, hv2]
    rw [if_neg (by omega)]
    have hcopy := readU8s_bytes c rest hc
    simp only [readU8s] at hcopy
    simp only [readU8s, hcopy]
  simp only [advanceStage, hbody, exceptBind_ok]
  cases f
  · rfl
  · rfl

theorem c1_small (S : List Nat) (ob : OutBuffer) (hb : ∀ b ∈ S, b < 256)
    (hsmall : S.length < 65535) :
    decodeSteps 2 ⟨ob, .newBlock⟩ ⟨[], deflateEncode S⟩ = some (.ok (S, ⟨[], []⟩)) := by
  rw [deflateEncode_last S hsmall]
  have e1 := advance_newBlock_header 1 true rfl ob
    (u16le S.length ++ u16le (65535 - S.length) ++ S)
  have e2 := advance_parsedMode_stored true ob (natBits 5 0) S [] hb (by omega)
  rw [List.append_nil] at e2
  rw [show (if true then Stage.complete else Stage.newBlock) = Stage.complete from rfl] at e2
  have hcons : encodeBlock true S =
      1 :: (u16le S.length ++ u16le (65535 - S.length) ++ S) := by
    simp [encodeBlock, List.append_assoc]
  rw [hcons]
  rw [decodeSteps_newBlock_ok 1 ob _ _ _ _ e1]
  rw [decodeSteps_parsedMode_ok 0 ob _ _ _ _ _ _ e2]
  rw [decodeSteps_complete_eq]
  simp [Except.map]

theorem c1_aux : ∀ (n : Nat) (S : List Nat) (ob : OutBuffer), S.length ≤ n →
    (∀ b ∈ S, b < 256) →
    decodeSteps (2 * (S.length / 65535 + 1)) ⟨ob, .newBlock⟩ ⟨[], deflateEncode S⟩ =
      some (.ok (S, ⟨[], []⟩)) := by
  intro n
  induction n with
  | zero =>
    intro S ob hlen hb
    have hq : S.length / 65535 = 0 := by omega
    rw [hq]
    exact c1_small S ob hb (by omega)
  | succ n ih =>
    intro S ob hlen hb
    by_cases hsmall : S.length < 65535
    · have hq : S.length / 65535 = 0 := by omega
      rw [hq]
      exact c1_small S ob hb hsmall
    · have hfuel : 2 * (S.length / 65535 + 1) =
          (2 * ((S.drop 65535).length / 65535 + 1)) + 1 + 1 := by
        rw [List.length_drop]
        omega
      rw [deflateEncode_step S hsmall]
      have hctake : ∀ b ∈ S.take 65535, b < 256 :=
        fun b hbx => hb b (List.take_subset _ _ hbx)
      have hltake : (S.take 65535).length ≤ 65535 := by
        rw [List.length_take]
        omega
      have e1 := advance_newBlock_header 0 false rfl ob
        ((u16le (S.take 65535).length ++ u16le (65535 - (S.take 65535).length) ++
          S.take 65535) ++ deflateEncode (S.drop 65535))
      have e2 := advance_parsedMode_stored false ob (natBits 5 0) (S.take 65535)
        (deflateEncode (S.drop 65535)) hctake hltake
      rw [show (if false then Stage.complete else Stage.newBlock) = Stage.newBlock
        from rfl] at e2
      have hcons : encodeBlock false (S.take 65535) ++ deflateEncode (S.drop 65535) =
          0 :: ((u16le (S.take 65535).length ++ u16le (65535 - (S.take 65535).length) ++
            S.take 65535) ++ deflateEncode (S.drop 65535)) := by
        simp [encodeBlock, List.append_assoc]
      rw [hcons, hfuel]
      rw [decodeSteps_newBlock_ok _ ob _ _ _ _ e1]
      rw [decodeSteps_parsedMode_ok _ ob _ _ _ _ _ _ e2]
      rw [ih (S.drop 65535) ob (by rw [List.length_drop]; omega)
        (fun b hbx => hb b (List.drop_subset _ _ hbx))]
      simp [Except.map, List.take_append_drop]

/-- C1: decoding the stored-block encoder's output recovers the input
byte sequence exactly and succeeds.  The fuel `2 * (length / 65535 + 1)`
is the exact number of `advance_stage` calls the decoder makes. -/
theorem c1_decode_encode (S : List Nat) (hS : ∀ b ∈ S, b < 256) :
    deflateDecode (2 * (S.length / 65535 + 1)) (deflateEncode S) = some (.ok S) := by
  unfold deflateDecode BitReader.new
  rw [c1_aux S.length S ⟨[]⟩ le_rfl hS]
  rfl

/-- Witness for C1 on the bytes of `Hi!`. -/
theorem c1_decode_encode_witness :
    (∀ b ∈ [72, 105, 33], b < 256) ∧
      deflateDecode (2 * (([72, 105, 33] : List Nat).length / 65535 + 1))
          (deflateEncode [72, 105, 33]) = some (.ok [72, 105, 33]) :=
  ⟨by decide, c1_decode_encode [72, 105, 33] (by decide)⟩

/-! ### C3 -/

set_option maxHeartbeats 4000000 in
set_option maxRecDepth 4000 in
/-- C3 (the code at the failing input): the dynamic-Huffman branch
decodes the literal and distance code lengths as two separate RLE passes
with the "previous code length" reset between them.  The input below has
HLIT+257 = 257, HDIST+1 = 3, a code-length tree with 1-bit codes for
symbols 2 and 16, a literal pass ending with previous length 2, and a
distance stream that is the single repeat symbol 16 — valid per RFC 1951
§3.2.7 (it repeats the last literal length, giving [2,2,2]), but rejected
as `InvalidData` by the decoder.  The last two conjuncts isolate the
boundary: the distance pass fails with `prev = none` and succeeds with
the carried-over `prev = some 2`. -/
theorem c3_rle_reset_at_boundary :
    (advanceStage ⟨⟨[]⟩, .parsedMode true .dynamicHuffman⟩
        ⟨[], [64, 112, 0, 0, 0, 0, 0, 136, 255, 255, 255, 255, 255, 255, 255, 255,
              255, 255, 255, 255, 255, 255, 255, 63, 2]⟩ = .error .invalidData) ∧
    (decodeCodeLengthsGo
        (dynamicCodeLengths [1, 0, 0, 0, 0, 0, 0, 0, 0, 0, 0, 0, 0, 0, 0, 1])
        3 3 [] none ⟨[], [1]⟩ = .error .invalidData) ∧
    (decodeCodeLengthsGo
        (dynamicCodeLengths [1, 0, 0, 0, 0, 0, 0, 0, 0, 0, 0, 0, 0, 0, 0, 1])
        3 3 [] (some 2) ⟨[], [1]⟩ = .ok ([2, 2, 2], ⟨natBits 5 0, []⟩)) :=
  ⟨rfl, rfl, rfl⟩

/-! ### C4: Kraft condition and the canonical code recurrences -/

theorem countLen_cons (a : Nat) (V : List Nat) (j : Nat) :
    countLen (a :: V) j = countLen V j + (if a = j then 1 else 0) := by
  simp only [countLen, List.count_cons]
  by_cases h : a = j
  · simp [h]
  · simp [h, Ne.symm h]

theorem pSum_nil (L : Nat) : pSum [] L = 0 := by
  induction L with
  | zero => rfl
  | succ L ih => simp [pSum, ih, countLen, List.count_nil]

theorem pSum_cons (a : Nat) (V : List Nat) (L : Nat) :
    pSum (a :: V) L = pSum V L + (if 1 ≤ a ∧ a ≤ L then 2 ^ (L - a) else 0) := by
  induction L with
  | zero =>
    simp only [pSum]
    rw [if_neg (by omega : ¬ (1 ≤ a ∧ a ≤ 0))]
  | succ L ih =>
    simp only [pSum, ih, countLen_cons]
    by_cases h1 : 1 ≤ a ∧ a ≤ L
    · rw [if_pos h1, if_pos (show 1 ≤ a ∧ a ≤ L + 1 by omega),
        if_neg (show ¬ a = L + 1 by omega)]
      have hpow : (2 : Nat) ^ (L + 1 - a) = 2 * 2 ^ (L - a) := by
        have heq : L + 1 - a = (L - a) + 1 := by omega
        rw [heq, pow_succ]
        ring
      omega
    · by_cases h2 : a = L + 1
      · rw [if_neg h1, if_pos (show 1 ≤ a ∧ a ≤ L + 1 by omega), if_pos h2]
        have hz : (2 : Nat) ^ (L + 1 - a) = 1 := by
          have heq : L + 1 - a = 0 := by omega
          rw [heq, pow_zero]
        omega
      · rw [if_neg h1, if_neg (show ¬ (1 ≤ a ∧ a ≤ L + 1) by omega), if_neg h2]
        omega

theorem maxLen_mem (V : List Nat) : ∀ a ∈ V, a ≤ maxLen V := by
  induction V with
  | nil => intro a ha; simp at ha
  | cons b W ih =>
    intro a ha
    rcases List.mem_cons.mp ha with h | h
    · subst h
      simp only [maxLen, List.foldr_cons]
      omega
    · have hW := ih a h
      simp only [maxLen, List.foldr_cons]
      simp only [maxLen] at hW
      omega

theorem kraftSum_eq_pSum (W : List Nat) (M : Nat) (hle : ∀ l ∈ W, l ≤ M) :
    kraftSum W M = pSum W M := by
  induction W with
  | nil => simp [kraftSum, pSum_nil]
  | cons a W ih =>
    have ha := hle a (List.mem_cons_self a W)
    have hW : ∀ l ∈ W, l ≤ M := fun l hl => hle l (List.mem_cons_of_mem a hl)
    have ihW := ih hW
    simp only [kraftSum] at ihW ⊢
    rw [pSum_cons]
    by_cases h0 : a = 0
    · subst h0
      rw [List.filter_cons, if_neg (by simp)]
      rw [ihW, if_neg (by omega)]
      omega
    · rw [List.filter_cons, if_pos (by simpa using h0)]
      simp only [List.map_cons, List.sum_cons]
      rw [ihW, if_pos (by omega)]
      omega

theorem pSum_scale (V : List Nat) (j L : Nat) (h : j ≤ L) :
    pSum V j * 2 ^ (L - j) ≤ pSum V L := by
  induction L with
  | zero =>
    have hj : j = 0 := by omega
    subst hj
    simp
  | succ L ih =>
    by_cases hj : j = L + 1
    · subst hj
      simp
    · have hjL : j ≤ L := by omega
      have hrec := ih hjL
      have hpow : (2 : Nat) ^ (L + 1 - j) = 2 * 2 ^ (L - j) := by
        have heq : L + 1 - j = (L - j) + 1 := by omega
        rw [heq, pow_succ]
        ring
      simp only [pSum]
      rw [hpow]
      have hmul : pSum V j * (2 * 2 ^ (L - j)) = 2 * (pSum V j * 2 ^ (L - j)) := by ring
      omega

theorem pSum_bound (V : List Nat) (hk : kraftOk V) (L : Nat) (hL : L ≤ maxLen V) :
    pSum V L ≤ 2 ^ L := by
  have hks : kraftSum V (maxLen V) = pSum V (maxLen V) :=
    kraftSum_eq_pSum V (maxLen V) (maxLen_mem V)
  have hfull : pSum V (maxLen V) ≤ 2 ^ maxLen V := by
    unfold kraftOk at hk
    omega
  have hscale := pSum_scale V L (maxLen V) hL
  have hpow : (2 : Nat) ^ maxLen V = 2 ^ L * 2 ^ (maxLen V - L) := by
    rw [← pow_add]
    congr 1
    omega
  have hpos : 0 < (2 : Nat) ^ (maxLen V - L) := Nat.two_pow_pos _
  have hle : pSum V L * 2 ^ (maxLen V - L) ≤ 2 ^ L * 2 ^ (maxLen V - L) := by
    omega
  exact Nat.le_of_mul_le_mul_right hle hpos

theorem rfc_add_count (V : List Nat) (L : Nat) (hL : 1 ≤ L) :
    rfcNextCode V L + countLen V L = pSum V L := by
  induction L with
  | zero => omega
  | succ L ih =>
    by_cases hL0 : L = 0
    · subst hL0
      simp only [rfcNextCode, pSum, if_pos rfl]
      simp [pSum]
    · have hrec := ih (by omega)
      simp only [rfcNextCode, pSum, if_neg hL0]
      omega

theorem rfc_eq_two_pSum (V : List Nat) (L : Nat) (hL : 2 ≤ L) :
    rfcNextCode V L = 2 * pSum V (L - 1) := by
  obtain ⟨K, rfl⟩ : ∃ K, L = K + 1 := ⟨L - 1, by omega⟩
  simp only [rfcNextCode, if_neg (show ¬ K = 0 by omega), Nat.add_sub_cancel]
  have hrec := rfc_add_count V K (by omega)
  omega

theorem src_eq_rfc (V : List Nat) (L : Nat) (hL : 1 ≤ L) :
    srcNextCode V L = rfcNextCode V L + countLen V 0 * 2 ^ L := by
  induction L with
  | zero => omega
  | succ L ih =>
    by_cases hL0 : L = 0
    · subst hL0
      have h1 : srcNextCode V 1 = countLen V 0 * 2 := by simp [srcNextCode]
      have h2 : rfcNextCode V 1 = 0 := by simp [rfcNextCode]
      rw [h1, h2, pow_one]
      omega
    · have hrec := ih (by omega)
      simp only [srcNextCode, rfcNextCode, if_neg hL0]
      have hpow : (2 : Nat) ^ (L + 1) = 2 ^ L * 2 := by rw [pow_succ]
      have hm : countLen V 0 * 2 ^ (L + 1) = countLen V 0 * 2 ^ L * 2 := by
        rw [hpow]
        ring
      omega

theorem rfc_ge_scaled (V : List Nat) (j L : Nat) (h1 : 1 ≤ j) (h2 : j < L) :
    pSum V j * 2 ^ (L - j) ≤ rfcNextCode V L := by
  have hL2 : 2 ≤ L := by omega
  rw [rfc_eq_two_pSum V L hL2]
  have hscale := pSum_scale V j (L - 1) (by omega)
  have hpow : (2 : Nat) ^ (L - j) = 2 * 2 ^ (L - 1 - j) := by
    have heq : L - j = (L - 1 - j) + 1 := by omega
    rw [heq, pow_succ]
    ring
  rw [hpow]
  have hmul : pSum V j * (2 * 2 ^ (L - 1 - j)) = 2 * (pSum V j * 2 ^ (L - 1 - j)) := by ring
  omega

theorem rankOf_lt_countLen (V : List Nat) (s : Nat) (hs : s < V.length) :
    rankOf V s < countLen V (V.getD s 0) := by
  have htake : V.take (s + 1) = V.take s ++ (V.getD s 0) :: [] := by
    rw [List.take_succ]
    congr 1
    rw [List.getD_eq_getElem V 0 hs, List.getElem?_eq_getElem hs]
    rfl
  have hcount : countLen (V.take (s + 1)) (V.getD s 0) = rankOf V s + 1 := by
    simp only [countLen, rankOf, htake, List.count_append]
    simp [List.count_cons]
  have hsub : (V.take (s + 1)).Sublist V := List.take_sublist _ _
  have hle := hsub.count_le (V.getD s 0)
  simp only [countLen] at *
  omega

theorem rfcCode_lt (V : List Nat) (s : Nat) (hk : kraftOk V) (hs : s < V.length)
    (hnz : V.getD s 0 ≠ 0) : rfcCode V s < 2 ^ (V.getD s 0) := by
  have hmem : V.getD s 0 ∈ V := by
    rw [List.getD_eq_getElem V 0 hs]
    exact List.getElem_mem hs
  have hM := maxLen_mem V _ hmem
  have hsum := rfc_add_count V (V.getD s 0) (by omega)
  have hbound := pSum_bound V hk (V.getD s 0) hM
  have hrank := rankOf_lt_countLen V s hs
  unfold rfcCode
  omega

theorem symCode_mod (V : List Nat) (s : Nat) (hk : kraftOk V) (hs : s < V.length)
    (hnz : V.getD s 0 ≠ 0) :
    symCode V s % 2 ^ (V.getD s 0) = rfcCode V s := by
  have hsrc := src_eq_rfc V (V.getD s 0) (by omega)
  have heq : symCode V s = rfcCode V s + countLen V 0 * 2 ^ (V.getD s 0) := by
    unfold symCode rfcCode
    omega
  rw [heq, Nat.add_mul_mod_self_right]
  exact Nat.mod_eq_of_lt (rfcCode_lt V s hk hs hnz)

theorem computeHeapIndex_eq (c k : Nat) :
    computeHeapIndex c k = 2 ^ k + c % 2 ^ k := by
  induction k generalizing c with
  | zero => simp [computeHeapIndex, Nat.mod_one]
  | succ k ih =>
    simp only [computeHeapIndex, ih]
    rw [mod_two_pow_succ_lsb]
    rw [pow_succ]
    ring

/-! ### C4: the source tree construction, characterised -/

theorem initNextCodes_getD (V : List Nat) (L : Nat) (hL : L ≤ maxLen V) :
    (initNextCodes V).getD L 0 = srcNextCode V L := by
  unfold initNextCodes
  rw [List.getD_eq_getElem?_getD, List.getElem?_map, List.getElem?_range (by omega)]
  rfl

theorem countLen_take_succ (V : List Nat) (k : Nat) (hk : k < V.length) (L : Nat) :
    countLen (V.take (k + 1)) L =
      countLen (V.take k) L + (if V.getD k 0 = L then 1 else 0) := by
  have htake : V.take (k + 1) = V.take k ++ (V.getD k 0) :: [] := by
    rw [List.take_succ]
    congr 1
    rw [List.getD_eq_getElem V 0 hk, List.getElem?_eq_getElem hk]
    rfl
  simp only [countLen, htake, List.count_append]
  by_cases h : V.getD k 0 = L
  · simp [h, List.count_cons]
  · simp [List.count_cons, h, List.count_nil]

/-- The `next_code` slot invariant together with the tree shape: after
processing the first `k` symbols, slot `L` holds `srcNextCode` plus the
count of earlier same-length symbols, and the tree equals the
precomputed-code fold. -/
theorem build_invariant (V : List Nat) : ∀ k, k ≤ V.length →
    (∀ L, L ≤ maxLen V →
      ((List.range k).foldl (huffAssign V)
        (initNextCodes V, List.replicate (2 ^ (maxLen V + 1)) (none : Option Nat))).1.getD L 0 =
        srcNextCode V L + countLen (V.take k) L) ∧
    ((List.range k).foldl (huffAssign V)
        (initNextCodes V, List.replicate (2 ^ (maxLen V + 1)) (none : Option Nat))).1.length =
      maxLen V + 1 ∧
    ((List.range k).foldl (huffAssign V)
        (initNextCodes V, List.replicate (2 ^ (maxLen V + 1)) (none : Option Nat))).2 =
      (List.range k).foldl
        (fun t s => t.set (computeHeapIndex (symCode V s) (V.getD s 0)) (some s))
        (List.replicate (2 ^ (maxLen V + 1)) (none : Option Nat)) := by
  intro k
  induction k with
  | zero =>
    intro _
    refine ⟨fun L hL => ?_, ?_, rfl⟩
    · simp only [List.range_zero, List.foldl_nil, List.take_zero]
      rw [initNextCodes_getD V L hL]
      simp [countLen, List.count_nil]
    · simp only [List.range_zero, List.foldl_nil]
      unfold initNextCodes
      simp
  | succ k ih =>
    intro hk1
    have hk : k < V.length := by omega
    obtain ⟨hnc, hlen, htree⟩ := ih (by omega)
    have hmem : V.getD k 0 ∈ V := by
      rw [List.getD_eq_getElem V 0 hk]
      exact List.getElem_mem hk
    have hML := maxLen_mem V _ hmem
    have hcode : ((List.range k).foldl (huffAssign V)
        (initNextCodes V, List.replicate (2 ^ (maxLen V + 1)) (none : Option Nat))).1.getD
          (V.getD k 0) 0 = symCode V k := by
      rw [hnc _ hML]
      unfold symCode rankOf countLen
      rfl
    rw [List.range_succ, List.foldl_append, List.foldl_cons, List.foldl_nil,
      List.foldl_append, List.foldl_cons, List.foldl_nil]
    refine ⟨fun L hL => ?_, ?_, ?_⟩
    · simp only [huffAssign, hcode]
      by_cases hLk : V.getD k 0 = L
      · rw [← hLk]
        rw [List.getD_eq_getElem?_getD,
          List.getElem?_set_self (by rw [hlen]; omega)]
        rw [countLen_take_succ V k hk, hLk]
        simp only [Option.getD_some, eq_self_iff_true, if_true]
        have hsym : symCode V k = srcNextCode V L + countLen (V.take k) L := by
          unfold symCode rankOf countLen
          rw [hLk]
        rw [← hLk] at hsym ⊢
        omega
      · rw [List.getD_eq_getElem?_getD, List.getElem?_set_ne (by omega)]
        rw [← List.getD_eq_getElem?_getD, hnc _ hL, countLen_take_succ V k hk,
          if_neg hLk]
        omega
    · simp only [huffAssign, List.length_set]
      exact hlen
    · simp only [huffAssign, hcode, htree]

/-- `from_code_lengths` builds exactly the precomputed-code placement. -/
theorem fromCodeLengths_eq_placeSymbols (V : List Nat) :
    (fromCodeLengths V).tree = placeSymbols V :=
  (build_invariant V V.length le_rfl).2.2

theorem fold_set_length (f : Nat → Nat) (l : List Nat) :
    ∀ t : List (Option Nat),
      (l.foldl (fun t s => t.set (f s) (some s)) t).length = t.length := by
  induction l with
  | nil => intro t; rfl
  | cons a l ih =>
    intro t
    simp only [List.foldl_cons, ih, List.length_set]

theorem fold_set_getD_none (f : Nat → Nat) (l : List Nat) :
    ∀ (t : List (Option Nat)) (p : Nat), (∀ s ∈ l, f s ≠ p) →
      (l.foldl (fun t s => t.set (f s) (some s)) t).getD p none = t.getD p none := by
  induction l with
  | nil => intro t p _; rfl
  | cons a l ih =>
    intro t p hne
    simp only [List.foldl_cons]
    rw [ih _ _ (fun s hs => hne s (List.mem_cons_of_mem a hs))]
    rw [List.getD_eq_getElem?_getD, List.getElem?_set_ne (hne a (List.mem_cons_self a l)),
      ← List.getD_eq_getElem?_getD]

theorem range_fold_getD_some (f : Nat → Nat) :
    ∀ (n s p : Nat) (t : List (Option Nat)), s < n → f s = p → p < t.length →
      (∀ u, s < u → u < n → f u ≠ p) →
      ((List.range n).foldl (fun t u => t.set (f u) (some u)) t).getD p none = some s := by
  intro n
  induction n with
  | zero => intro s p t hs; omega
  | succ n ih =>
    intro s p t hs hf hp hothers
    rw [List.range_succ, List.foldl_append, List.foldl_cons, List.foldl_nil]
    by_cases hsn : s = n
    · subst hsn
      rw [hf]
      rw [List.getD_eq_getElem?_getD,
        List.getElem?_set_self (by rw [fold_set_length]; omega)]
      rfl
    · rw [List.getD_eq_getElem?_getD,
        List.getElem?_set_ne (hothers n (by omega) (by omega)),
        ← List.getD_eq_getElem?_getD]
      exact ih s p t (by omega) hf hp (fun u hu1 hu2 => hothers u hu1 (by omega))

theorem getD_replicate_none (n p : Nat) :
    (List.replicate n (none : Option Nat)).getD p none = none := by
  rw [List.getD_eq_getElem?_getD, List.getElem?_replicate]
  by_cases h : p < n
  · rw [if_pos h]
    rfl
  · rw [if_neg h]
    rfl

theorem placeSymbols_length (V : List Nat) :
    (placeSymbols V).length = 2 ^ (maxLen V + 1) := by
  unfold placeSymbols
  rw [fold_set_length]
  exact List.length_replicate ..

theorem placeSymbols_getD_none (V : List Nat) (p : Nat)
    (h : ∀ s, s < V.length → computeHeapIndex (symCode V s) (V.getD s 0) ≠ p) :
    (placeSymbols V).getD p none = none := by
  unfold placeSymbols
  rw [fold_set_getD_none _ _ _ _ (fun s hs => h s (List.mem_range.mp hs))]
  exact getD_replicate_none _ _

theorem placeSymbols_getD_some (V : List Nat) (s p : Nat) (hs : s < V.length)
    (hf : computeHeapIndex (symCode V s) (V.getD s 0) = p) (hp : p < 2 ^ (maxLen V + 1))
    (hothers : ∀ u, u < V.length → u ≠ s →
      computeHeapIndex (symCode V u) (V.getD u 0) ≠ p) :
    (placeSymbols V).getD p none = some s := by
  unfold placeSymbols
  exact range_fold_getD_some _ V.length s p _ hs hf
    (by rw [List.length_replicate]; omega)
    (fun u hu1 hu2 => hothers u hu2 (by omega))

theorem heapIndex_pos (V : List Nat) (u : Nat) (hk : kraftOk V) (hu : u < V.length)
    (hnz : V.getD u 0 ≠ 0) :
    computeHeapIndex (symCode V u) (V.getD u 0) = 2 ^ (V.getD u 0) + rfcCode V u := by
  rw [computeHeapIndex_eq, symCode_mod V u hk hu hnz]

theorem heapIndex_zero (V : List Nat) (u : Nat) (hz : V.getD u 0 = 0) :
    computeHeapIndex (symCode V u) (V.getD u 0) = 1 := by
  rw [hz]
  rfl

theorem pow_decomp_ne (a b x y : Nat) (hx : x < 2 ^ a) (hy : y < 2 ^ b) (hne : a ≠ b) :
    2 ^ a + x ≠ 2 ^ b + y := by
  rcases Nat.lt_or_ge a b with h | h
  · have h1 : 2 ^ a + x < 2 ^ (a + 1) := by
      have hp : (2 : Nat) ^ (a + 1) = 2 ^ a * 2 := by rw [pow_succ]
      omega
    have h2 : (2 : Nat) ^ (a + 1) ≤ 2 ^ b := Nat.pow_le_pow_right (by norm_num) (by omega)
    omega
  · have hab : b < a := by omega
    have h1 : 2 ^ b + y < 2 ^ (b + 1) := by
      have hp : (2 : Nat) ^ (b + 1) = 2 ^ b * 2 := by rw [pow_succ]
      omega
    have h2 : (2 : Nat) ^ (b + 1) ≤ 2 ^ a := Nat.pow_le_pow_right (by norm_num) (by omega)
    omega

theorem rankOf_strict (V : List Nat) (t s : Nat) (ht : t < s) (hs : s < V.length)
    (heq : V.getD t 0 = V.getD s 0) : rankOf V t < rankOf V s := by
  have ht' : t < V.length := by omega
  have h1 : (V.take (t + 1)).count (V.getD t 0) = (V.take t).count (V.getD t 0) + 1 := by
    have hc := countLen_take_succ V t ht' (V.getD t 0)
    simp only [countLen, eq_self_iff_true, if_true] at hc
    omega
  have htt : V.take (t + 1) = (V.take s).take (t + 1) := by
    rw [List.take_take, Nat.min_eq_left (by omega)]
  have hsub : (V.take (t + 1)).Sublist (V.take s) := by
    rw [htt]
    exact List.take_sublist _ _
  have h2 := hsub.count_le (V.getD t 0)
  show (V.take t).count (V.getD t 0) < (V.take s).count (V.getD s 0)
  rw [← heq]
  omega

theorem rfcCode_ne_same_len (V : List Nat) (t s : Nat) (hne : t ≠ s)
    (ht : t < V.length) (hs : s < V.length) (heq : V.getD t 0 = V.getD s 0) :
    rfcCode V t ≠ rfcCode V s := by
  unfold rfcCode
  rw [heq]
  rcases Nat.lt_or_ge t s with h | h
  · have hr := rankOf_strict V t s h hs heq
    omega
  · have hst : s < t := by omega
    have hr := rankOf_strict V s t hst ht heq.symm
    omega

theorem walk_index_step (i c j K : Nat) (hj : j ≤ K) :
    (2 * i + c / 2 ^ K % 2) * 2 ^ j + c / 2 ^ (K - j) % 2 ^ j =
      i * 2 ^ (j + 1) + c / 2 ^ (K - j) % 2 ^ (j + 1) := by
  have hd : c / 2 ^ (K - j) / 2 ^ j = c / 2 ^ K := by
    rw [Nat.div_div_eq_div_mul, ← pow_add]
    congr 2
    omega
  have hmsb := mod_two_pow_succ_msb (c / 2 ^ (K - j)) j
  rw [hd] at hmsb
  have hpow : (2 : Nat) ^ (j + 1) = 2 * 2 ^ j := by
    rw [pow_succ]
    ring
  rw [hmsb, hpow]
  ring

theorem ite_decide_mod_two (x : Nat) :
    (if decide (x % 2 = 1) = true then (1 : Nat) else 0) = x % 2 := by
  rcases Nat.mod_two_eq_zero_or_one x with h | h <;> simp [h]

/-- The decode walk: feeding the `k+1` bits of a code (MSB first) into
the tree walk, provided every intermediate heap slot is empty and in
bounds and the final slot holds symbol `s`, returns `s` and consumes
exactly those bits. -/
theorem treeDecode_walk (t : List (Option Nat)) (s : Nat) :
    ∀ (k c i fuel : Nat) (r : BitReader) (rest : List Bool),
      k + 1 ≤ fuel →
      bitsOf r = msbBits (k + 1) c ++ rest →
      (∀ j, 1 ≤ j → j < k + 1 →
        i * 2 ^ j + c / 2 ^ (k + 1 - j) % 2 ^ j < t.length ∧
        t.getD (i * 2 ^ j + c / 2 ^ (k + 1 - j) % 2 ^ j) none = none) →
      i * 2 ^ (k + 1) + c % 2 ^ (k + 1) < t.length →
      t.getD (i * 2 ^ (k + 1) + c % 2 ^ (k + 1)) none = some s →
      ∃ r', treeDecodeAux t fuel i r = .ok (s, r') ∧ bitsOf r' = rest := by
  intro k
  induction k with
  | zero =>
    intro c i fuel r rest hfuel hb hmid hlt hleaf
    obtain ⟨m, rfl⟩ : ∃ m, fuel = m + 1 := ⟨fuel - 1, by omega⟩
    simp only [msbBits, pow_zero, Nat.div_one, List.cons_append, List.nil_append] at hb
    obtain ⟨r1, hrb, hb1⟩ := readBool_bitsOf hb
    refine ⟨r1, ?_, hb1⟩
    simp only [treeDecodeAux, hrb, exceptBind_ok]
    rw [ite_decide_mod_two]
    have hpow : (2 : Nat) ^ (0 + 1) = 2 := rfl
    have hidx : 2 * i + c % 2 = i * 2 ^ (0 + 1) + c % 2 ^ (0 + 1) := by
      rw [hpow]
      ring
    rw [if_neg (by rw [hidx]; exact Nat.not_le.mpr hlt)]
    rw [hidx, hleaf]
  | succ k ih =>
    intro c i fuel r rest hfuel hb hmid hlt hleaf
    obtain ⟨m, rfl⟩ : ∃ m, fuel = m + 1 := ⟨fuel - 1, by omega⟩
    rw [show msbBits (k + 1 + 1) c =
        (decide (c / 2 ^ (k + 1) % 2 = 1)) :: msbBits (k + 1) c from rfl,
      List.cons_append] at hb
    obtain ⟨r1, hrb, hb1⟩ := readBool_bitsOf hb
    obtain ⟨hj1a, hj1b⟩ := hmid 1 (by omega) (by omega)
    have hidx1 : i * 2 ^ 1 + c / 2 ^ (k + 1 + 1 - 1) % 2 ^ 1 =
        2 * i + c / 2 ^ (k + 1) % 2 := by
      simp only [pow_one]
      have heq : k + 1 + 1 - 1 = k + 1 := by omega
      rw [heq]
      ring
    rw [hidx1] at hj1a hj1b
    have hmid' : ∀ j, 1 ≤ j → j < k + 1 →
        (2 * i + c / 2 ^ (k + 1) % 2) * 2 ^ j + c / 2 ^ (k + 1 - j) % 2 ^ j < t.length ∧
        t.getD ((2 * i + c / 2 ^ (k + 1) % 2) * 2 ^ j + c / 2 ^ (k + 1 - j) % 2 ^ j)
          none = none := by
      intro j hjge hjlt
      have hw := walk_index_step i c j (k + 1) (by omega)
      rw [hw]
      have horig := hmid (j + 1) (by omega) (by omega)
      have heq : k + 1 + 1 - (j + 1) = k + 1 - j := by omega
      rw [heq] at horig
      exact horig
    have hw2 := walk_index_step i c (k + 1) (k + 1) le_rfl
    simp only [Nat.sub_self, pow_zero, Nat.div_one] at hw2
    have hlt' : (2 * i + c / 2 ^ (k + 1) % 2) * 2 ^ (k + 1) + c % 2 ^ (k + 1) <
        t.length := by
      rw [hw2]
      exact hlt
    have hleaf' : t.getD ((2 * i + c / 2 ^ (k + 1) % 2) * 2 ^ (k + 1) + c % 2 ^ (k + 1))
        none = some s := by
      rw [hw2]
      exact hleaf
    obtain ⟨r2, hrec, hb2⟩ := ih c (2 * i + c / 2 ^ (k + 1) % 2) m r1 rest
      (by omega) hb1 hmid' hlt' hleaf'
    refine ⟨r2, ?_, hb2⟩
    simp only [treeDecodeAux, hrb, exceptBind_ok]
    rw [ite_decide_mod_two]
    rw [if_neg (by omega)]
    rw [hj1b]
    exact hrec

/-- C4: `from_code_lengths` on a Kraft-valid code-length vector builds a
tree on which `decode` inverts the RFC 1951 canonical code: feeding the
`len` bits of symbol `s`'s canonical codeword (MSB first) returns `s`
and consumes exactly those bits. -/
theorem c4_canonical_decode (V : List Nat) (s : Nat) (r : BitReader) (rest : List Bool)
    (hk : kraftOk V) (hs : s < V.length) (hnz : V.getD s 0 ≠ 0)
    (hb : bitsOf r = msbBits (V.getD s 0) (rfcCode V s) ++ rest) :
    ∃ r', (fromCodeLengths V).decode r = .ok (s, r') ∧ bitsOf r' = rest := by
  obtain ⟨k, hLs⟩ : ∃ k, V.getD s 0 = k + 1 := ⟨V.getD s 0 - 1, by omega⟩
  have hmemL : V.getD s 0 ∈ V := by
    rw [List.getD_eq_getElem V 0 hs]
    exact List.getElem_mem hs
  have hLM : V.getD s 0 ≤ maxLen V := maxLen_mem V _ hmemL
  have hclt : rfcCode V s < 2 ^ (k + 1) := by
    have h := rfcCode_lt V s hk hs hnz
    rwa [hLs] at h
  have hcge : rfcNextCode V (k + 1) ≤ rfcCode V s := by
    unfold rfcCode
    rw [hLs]
    omega
  have hfuel : k + 1 ≤ 2 ^ (maxLen V + 1) := by
    have h1 : maxLen V < 2 ^ (maxLen V) := Nat.lt_two_pow _
    have h2 : (2 : Nat) ^ (maxLen V) ≤ 2 ^ (maxLen V + 1) :=
      Nat.pow_le_pow_right (by norm_num) (by omega)
    omega
  rw [hLs] at hb
  unfold HuffmanTree.decode
  rw [fromCodeLengths_eq_placeSymbols, placeSymbols_length]
  refine treeDecode_walk (placeSymbols V) s k (rfcCode V s) 1
    (2 ^ (maxLen V + 1)) r rest hfuel hb ?_ ?_ ?_
  · intro j hj1 hjk
    have hmlt : rfcCode V s / 2 ^ (k + 1 - j) % 2 ^ j < 2 ^ j :=
      Nat.mod_lt _ (Nat.two_pow_pos j)
    constructor
    · rw [placeSymbols_length]
      have hp : (2 : Nat) ^ (j + 1) = 2 ^ j * 2 := pow_succ 2 j
      have hple : (2 : Nat) ^ (j + 1) ≤ 2 ^ (maxLen V + 1) :=
        Nat.pow_le_pow_right (by norm_num) (by omega)
      omega
    · refine placeSymbols_getD_none V _ ?_
      intro u hu
      rw [one_mul]
      by_cases hzu : V.getD u 0 = 0
      · rw [heapIndex_zero V u hzu]
        have h2j : (2 : Nat) ^ 1 ≤ 2 ^ j := Nat.pow_le_pow_right (by norm_num) hj1
        have h21 : (2 : Nat) ^ 1 = 2 := rfl
        omega
      · by_cases hLuj : V.getD u 0 = j
        · rw [heapIndex_pos V u hk hu hzu, hLuj]
          have hsplit : (2 : Nat) ^ (k + 1) = 2 ^ j * 2 ^ (k + 1 - j) := by
            rw [← pow_add]
            congr 1
            omega
          have hdiv_lt : rfcCode V s / 2 ^ (k + 1 - j) < 2 ^ j := by
            rw [Nat.div_lt_iff_lt_mul (Nat.two_pow_pos _), ← hsplit]
            exact hclt
          have hmod_eq : rfcCode V s / 2 ^ (k + 1 - j) % 2 ^ j =
              rfcCode V s / 2 ^ (k + 1 - j) := Nat.mod_eq_of_lt hdiv_lt
          have hge : pSum V j ≤ rfcCode V s / 2 ^ (k + 1 - j) := by
            rw [Nat.le_div_iff_mul_le (Nat.two_pow_pos _)]
            have h1 := rfc_ge_scaled V j (k + 1) hj1 hjk
            omega
          have hlt2 : rfcCode V u < pSum V j := by
            have ha := rfc_add_count V j hj1
            have hb2 := rankOf_lt_countLen V u hu
            rw [hLuj] at hb2
            unfold rfcCode
            rw [hLuj]
            omega
          omega
        · rw [heapIndex_pos V u hk hu hzu]
          exact pow_decomp_ne _ _ _ _ (rfcCode_lt V u hk hu hzu) hmlt hLuj
  · rw [placeSymbols_length]
    have hp : (2 : Nat) ^ (k + 1 + 1) = 2 ^ (k + 1) * 2 := pow_succ 2 (k + 1)
    have hple : (2 : Nat) ^ (k + 1 + 1) ≤ 2 ^ (maxLen V + 1) :=
      Nat.pow_le_pow_right (by norm_num) (by omega)
    have hm : rfcCode V s % 2 ^ (k + 1) < 2 ^ (k + 1) :=
      Nat.mod_lt _ (Nat.two_pow_pos _)
    omega
  · have hmodc : rfcCode V s % 2 ^ (k + 1) = rfcCode V s := Nat.mod_eq_of_lt hclt
    rw [one_mul, hmodc]
    refine placeSymbols_getD_some V s _ hs ?_ ?_ ?_
    · rw [heapIndex_pos V s hk hs hnz, hLs]
    · have hp : (2 : Nat) ^ (k + 1 + 1) = 2 ^ (k + 1) * 2 := pow_succ 2 (k + 1)
      have hple : (2 : Nat) ^ (k + 1 + 1) ≤ 2 ^ (maxLen V + 1) :=
        Nat.pow_le_pow_right (by norm_num) (by omega)
      omega
    · intro u hu hus
      by_cases hzu : V.getD u 0 = 0
      · rw [heapIndex_zero V u hzu]
        have h2j : (2 : Nat) ^ 1 ≤ 2 ^ (k + 1) :=
          Nat.pow_le_pow_right (by norm_num) (by omega)
        have h21 : (2 : Nat) ^ 1 = 2 := rfl
        omega
      · by_cases hLuL : V.getD u 0 = k + 1
        · rw [heapIndex_pos V u hk hu hzu, hLuL]
          have hne2 : rfcCode V u ≠ rfcCode V s :=
            rfcCode_ne_same_len V u s hus hu hs (by rw [hLuL, hLs])
          omega
        · rw [heapIndex_pos V u hk hu hzu]
          exact pow_decomp_ne _ _ _ _ (rfcCode_lt V u hk hu hzu) hclt hLuL

theorem c4_canonical_decode_witness :
    kraftOk [1, 1] ∧
      ∃ r', (fromCodeLengths [1, 1]).decode ⟨[false], []⟩ = .ok (0, r') ∧
        bitsOf r' = [] :=
  ⟨by decide,
    c4_canonical_decode [1, 1] 0 ⟨[false], []⟩ [] (by decide) (by decide)
      (by decide) (by decide)⟩
